import Mathlib

set_option maxHeartbeats 1000000

/-!
# Verification of the SparrowAI streaming chat orchestration engine

Shallow embedding of the chat-completion pipeline of
`src/src-tauri/src/chat.rs`: the emergent-XML tool-call extractor, the history
block stripper, the streaming driver loop with inline tool dispatch and
deduplication, the continuation decision, the stream-cancellation registry, and
the tool-format selector.

Texts are modelled as `List Char`; the delimiters scanned for are ASCII, so
Rust byte positions and character positions identify occurrences one-to-one.
Calls into external crates (`serde_json` parsing of a call block's payload,
`mcp::call_mcp_tool` tool execution, the backend token stream) are modelled as
oracle parameters (`parse`, `toolExec`, explicit event lists): the repository
code treats them as opaque collaborators.
-/

namespace SparrowChat

/-- Character-list model of a Rust string slice. -/
abbrev Text := List Char

/-- Model of Rust `str::find(pattern)`: index of the first occurrence of `pat`
in `l`, if any. -/
def listFind? (pat : Text) : Text → Option Nat
  | [] => if pat.isPrefixOf ([] : Text) then some 0 else none
  | c :: rest =>
    if pat.isPrefixOf (c :: rest) then some 0
    else (listFind? pat rest).map (· + 1)

/-- Model of Rust `str::rfind(pattern)`: index of the last occurrence of `pat`
in `l`, if any. -/
def listRevFind? (pat : Text) : Text → Option Nat
  | [] => if pat.isPrefixOf ([] : Text) then some 0 else none
  | c :: rest =>
    match listRevFind? pat rest with
    | some i => some (i + 1)
    | none => if pat.isPrefixOf (c :: rest) then some 0 else none

/-- Model of Rust `str::contains(pattern)`. -/
def occursIn (pat l : Text) : Bool := (listFind? pat l).isSome

/-- Model of Rust `str::trim()` (leading and trailing whitespace removed). -/
def trimChars (l : Text) : Text :=
  ((l.dropWhile Char.isWhitespace).reverse.dropWhile Char.isWhitespace).reverse

/-- The `<tool_call>` delimiter (11 characters). -/
def openTagL : Text := ['<', 't', 'o', 'o', 'l', '_', 'c', 'a', 'l', 'l', '>']

/-- The `</tool_call>` delimiter (12 characters). -/
def closeTagL : Text := ['<', '/', 't', 'o', 'o', 'l', '_', 'c', 'a', 'l', 'l', '>']

/-- The `<tool_response>` delimiter (15 characters). -/
def respOpenL : Text :=
  ['<', 't', 'o', 'o', 'l', '_', 'r', 'e', 's', 'p', 'o', 'n', 's', 'e', '>']

/-- The `</tool_response>` delimiter (16 characters). -/
def respCloseL : Text :=
  ['<', '/', 't', 'o', 'o', 'l', '_', 'r', 'e', 's', 'p', 'o', 'n', 's', 'e', '>']

/-- An extracted tool invocation: function name and the serialized arguments
object, as produced by `extract_all_tool_calls_from_xml` in the source. -/
abbrev ToolCall := Text × Text

/-- The scanning loop of `extract_all_tool_calls_from_xml` (chat.rs:1716-1744),
written with explicit fuel (each iteration consumes at least one character, so
`text.length` fuel suffices; see `extract_all_tool_calls_from_xml`).
`parse` is the oracle for the `serde_json::from_str` step that reads the block
payload and yields the `name` string and the re-serialized `arguments` object,
or `none` on malformed/ill-shaped JSON (which the source silently skips). -/
def extractFuel (parse : Text → Option ToolCall) : Nat → Text → List ToolCall
  | 0, _ => []
  | fuel + 1, text =>
    match listFind? openTagL text with
    | none => []
    | some s =>
      match listFind? closeTagL (text.drop s) with
      | none => []
      | some e =>
        let content := ((text.drop s).drop openTagL.length).take (e - openTagL.length)
        (match parse content with
         | some c => [c]
         | none => []) ++ extractFuel parse fuel (text.drop (s + e + closeTagL.length))

/-- Model of `extract_all_tool_calls_from_xml` (chat.rs:1716-1744): scan the
accumulated text left to right for complete `<tool_call>...</tool_call>`
blocks, parse each payload, and return the invocations found, in order. -/
def extract_all_tool_calls_from_xml (parse : Text → Option ToolCall) (text : Text) :
    List ToolCall :=
  extractFuel parse text.length text

/-- Model of `has_incomplete_tool_call` (chat.rs:1768-1776): true when the last
`<tool_call>` in the text has no matching `</tool_call>` after it. -/
def has_incomplete_tool_call (text : Text) : Bool :=
  match listRevFind? openTagL text with
  | some s =>
    match listFind? closeTagL (text.drop s) with
    | some _ => false
    | none => true
  | none => false

/-- Model of `check_if_continuation_needed` (chat.rs:1778-1781): continue
whenever any `<tool_response>` appears, regardless of content. -/
def check_if_continuation_needed (text : Text) : Bool := occursIn respOpenL text

/-- The loop of `strip_tool_xml_tags` (chat.rs:1798-1845), with explicit fuel
(each iteration consumes at least one character). Each iteration first looks
for a `<tool_call>` anywhere in the remainder (emitting the text before it
verbatim and skipping the block, or, if the block is unterminated, stopping),
and only failing that looks for a `<tool_response>`. -/
def stripFuel : Nat → Text → Text
  | 0, _ => []
  | fuel + 1, content =>
    match listFind? openTagL content with
    | some s =>
      (match listFind? closeTagL (content.drop s) with
       | some e => content.take s ++ stripFuel fuel (content.drop (s + e + closeTagL.length))
       | none => content.take s)
    | none =>
      match listFind? respOpenL content with
      | some s =>
        (match listFind? respCloseL (content.drop s) with
         | some e => content.take s ++ stripFuel fuel (content.drop (s + e + respCloseL.length))
         | none => content.take s)
      | none => content

/-- Model of `strip_tool_xml_tags` (chat.rs:1798-1845): remove complete
call/response blocks as described in `stripFuel`, then trim the result. -/
def strip_tool_xml_tags (content : Text) : Text :=
  trimChars (stripFuel (content.length + 1) content)

/-- Model of `should_use_modern_tool_format` (chat.rs:205-215): the body is a
commented-out model-name match and the function returns the literal `false`
("Placeholder until more models are supported"). -/
def should_use_modern_tool_format (_modelName : Text) : Bool := false

/-- The tools attached to the outbound request (chat.rs:1269-1276): only when
the modern format is selected and the MCP tool list is non-empty. -/
def requestToolsOf (modelName : Text) (mcpTools : List Text) : List Text :=
  if should_use_modern_tool_format modelName && !mcpTools.isEmpty then mcpTools else []

/-! ## Rendering well-formed inputs for the extractor properties

`renderBlocks` builds a text out of complete call blocks: each list entry is
`(payload, invocation, trailing prose)` where `invocation` is what the JSON
oracle yields for `payload`. -/

/-- Concatenation of complete call blocks, each followed by trailing prose. -/
def renderBlocks : List (Text × ToolCall × Text) → Text
  | [] => []
  | b :: bs => openTagL ++ b.1 ++ closeTagL ++ b.2.2 ++ renderBlocks bs

/-- Concatenation of complete call blocks (contents only), for the stripper. -/
def joinCalls : List Text → Text
  | [] => []
  | c :: cs => openTagL ++ c ++ closeTagL ++ joinCalls cs

/-- Concatenation of complete response blocks (contents only). -/
def joinResps : List Text → Text
  | [] => []
  | r :: rs => respOpenL ++ r ++ respCloseL ++ joinResps rs

/-! ## The streaming driver

Model of `process_stream_with_tool_calls` (chat.rs:477-690) and its caller
`chat_with_loaded_model_streaming` (chat.rs:1198-1375), as a function from the
items produced by the backend stream (interleaved with cancellation wins of
the `tokio::select!` race) to the linear trace of observable actions the turn
performs. -/

/-- Outcome of a tool execution or of a follow-up stream
(`Result<String, String>` in the source). -/
inductive TOut
  | ok (s : Text)
  | err (s : Text)
deriving DecidableEq

/-- One entry of a `tool_calls` delta chunk in a stream choice
(modern/structured format, chat.rs:532-556). -/
structure Delta where
  idx : Nat
  id? : Option Text
  name? : Option Text
  args? : Option Text
deriving DecidableEq

/-- An accumulated `ChatCompletionMessageToolCall` (modern format). -/
structure MTC where
  id : Text
  name : Text
  args : Text
deriving DecidableEq, Inhabited

/-- One choice of a stream response chunk: optional structured tool-call
deltas, optional content fragment, and a finish-reason marker. -/
structure Choice where
  deltas : List Delta
  content : Option Text
  finish : Bool
deriving DecidableEq

/-- One item won by the `tokio::select!` race in the streaming loop
(chat.rs:502-625): a cancellation signal, a successful response chunk
(optional usage record plus choices), or a stream error. -/
inductive Ev
  | cancel
  | chunk (usage : Option (Nat × Nat × Nat)) (choices : List Choice)
  | streamErr (msg : Text)
deriving DecidableEq

/-- One item of a follow-up (continuation) stream: a content token or an
error. -/
inductive FEv
  | tok (s : Text)
  | ferr (msg : Text)
deriving DecidableEq

/-- Which request a stream-opening action belongs to. -/
inductive StreamKind
  | primary
  | xmlCont
  | modernCont
deriving DecidableEq

/-- An event emitted to the UI layer (`app.emit` calls in the source). -/
inductive Emit
  | token (s : Text) (finished : Bool)
  | terminal (cancelled : Bool) (usage : Option (Nat × Nat × Nat))
  | toolCall (name args result : Text)
  | chatError (msg : Text)
  | usageEv (u : Nat × Nat × Nat)
deriving DecidableEq

/-- One observable action of a chat turn, in program order. -/
inductive Act
  | openStream (k : StreamKind)
  | registerStream (id : Text)
  | deregisterStream (id : Text)
  | execTool (name args : Text) (outcome : TOut)
  | emit (e : Emit)
deriving DecidableEq

/-- The dedup signature of an invocation: `format!("{}:{}", name, args)`
(chat.rs:576). -/
def sigOf (c : ToolCall) : Text := c.1 ++ ':' :: c.2

/-- `"Error: "` (the prefix used for failed tool results). -/
def errPre : Text := "Error: ".toList

/-- A successful tool result rendered as a response block
(`format!("\n<tool_response>\n{}\n</tool_response>", result)`, chat.rs:735). -/
def respOk (r : Text) : Text :=
  '\n' :: (respOpenL ++ ('\n' :: (r ++ ('\n' :: respCloseL))))

/-- A failed tool result rendered as a response block
(`format!("\n<tool_response>\nError: {}\n</tool_response>", e)`, chat.rs:750). -/
def respErr (e : Text) : Text :=
  '\n' :: (respOpenL ++ ('\n' :: (errPre ++ e ++ ('\n' :: respCloseL))))

/-- Mutable state of the streaming loop (chat.rs:493-500), plus the trace of
actions performed so far. `executed` is the `HashSet` of dedup signatures. -/
structure LoopState where
  fullResponse : Text
  executed : List Text
  needsCont : Bool
  usage : Option (Nat × Nat × Nat)
  wasCancelled : Bool
  modernCalls : List MTC
  acts : List Act
deriving DecidableEq

/-- Loop state at the start of a turn. -/
def initState : LoopState := ⟨[], [], false, none, false, [], []⟩

/-- Execute the newly extracted calls in order (chat.rs:575-598): skip a call
whose signature is already in the executed set, otherwise record it, run the
tool (`execute_tool_call`/`mcp::call_mcp_tool`, modelled by the `toolExec`
oracle) and apply `handle_tool_result` (chat.rs:713-766): on success emit one
`tool-call` event then append and emit the response block; on failure only
append and emit the error response block. Both arms set the
continuation-needed flag. -/
def processCalls (toolExec : Text → Text → TOut) : List ToolCall → LoopState → LoopState
  | [], st => st
  | c :: cs, st =>
    let s := sigOf c
    if s ∈ st.executed then processCalls toolExec cs st
    else
      let st := { st with executed := s :: st.executed }
      match toolExec c.1 c.2 with
      | .ok r =>
        let blk := respOk r
        processCalls toolExec cs
          { st with
            acts := st.acts ++
              [.execTool c.1 c.2 (.ok r), .emit (.toolCall c.1 c.2 r),
               .emit (.token blk false)]
            fullResponse := st.fullResponse ++ blk
            needsCont := true }
      | .err e =>
        let blk := respErr e
        processCalls toolExec cs
          { st with
            acts := st.acts ++ [.execTool c.1 c.2 (.err e), .emit (.token blk false)]
            fullResponse := st.fullResponse ++ blk
            needsCont := true }

/-- Pad the accumulated modern tool-call list with defaults up to index `idx`
(the `while modern_tool_calls.len() <= index` push loop, chat.rs:536-541). -/
def padCalls (l : List MTC) (idx : Nat) : List MTC :=
  if l.length ≤ idx then l ++ List.replicate (idx + 1 - l.length) default else l

/-- Merge one structured tool-call delta into the accumulated list
(chat.rs:533-555): id and name replace, arguments append. -/
def applyDelta (l : List MTC) (d : Delta) : List MTC :=
  let l := padCalls l d.idx
  let tc := l.getD d.idx default
  let tc := match d.id? with | some i => { tc with id := i } | none => tc
  let tc := match d.name? with | some n => { tc with name := n } | none => tc
  let tc := match d.args? with | some a => { tc with args := tc.args ++ a } | none => tc
  l.set d.idx tc

/-- Process one stream choice (chat.rs:529-609): accumulate structured deltas
(modern format only), then append and emit the content fragment and, in the
XML format, rescan the whole accumulated text and execute any new calls. The
finish-reason marker only triggers a log-level warning, so it performs no
action here. -/
def processChoice (parse : Text → Option ToolCall) (toolExec : Text → Text → TOut)
    (useModern : Bool) (st : LoopState) (ch : Choice) : LoopState :=
  let st :=
    match useModern with
    | true => { st with modernCalls := ch.deltas.foldl applyDelta st.modernCalls }
    | false => st
  match ch.content with
  | none => st
  | some content =>
    let st :=
      { st with
        fullResponse := st.fullResponse ++ content
        acts := st.acts ++ [.emit (.token content false)] }
    match useModern with
    | true => st
    | false => processCalls toolExec (extract_all_tool_calls_from_xml parse st.fullResponse) st

/-- Process the choices of one chunk in order. -/
def processChoices (parse : Text → Option ToolCall) (toolExec : Text → Text → TOut)
    (useModern : Bool) : List Choice → LoopState → LoopState
  | [], st => st
  | ch :: rest, st =>
    processChoices parse toolExec useModern rest (processChoice parse toolExec useModern st ch)

/-- The streaming loop (chat.rs:502-625): a won cancellation race marks the
turn cancelled and stops consuming items; a stream error emits a `chat-error`
event and stops; a chunk records usage (overwrite) and processes its choices;
end of input is the backend stream ending. -/
def runLoop (parse : Text → Option ToolCall) (toolExec : Text → Text → TOut)
    (useModern : Bool) : List Ev → LoopState → LoopState
  | [], st => st
  | ev :: rest, st =>
    match ev with
    | .cancel => { st with wasCancelled := true }
    | .streamErr m => { st with acts := st.acts ++ [.emit (.chatError m)] }
    | .chunk u chs =>
      let st := match u with | some ud => { st with usage := some ud } | none => st
      runLoop parse toolExec useModern rest (processChoices parse toolExec useModern chs st)

/-- Consume a follow-up stream's items: each content token is emitted and
accumulated; an error aborts the stream with the given message
(chat.rs:1476-1504 and chat.rs:873-895). -/
def contTokens : List FEv → List Act × TOut
  | [] => ([], .ok [])
  | .tok s :: rest =>
    (match contTokens rest with
     | (a, .ok t) => (Act.emit (.token s false) :: a, .ok (s ++ t))
     | (a, .err m) => (Act.emit (.token s false) :: a, .err m))
  | .ferr m :: _ => ([], .err m)

/-- `"Continuation stream error: "` (chat.rs:1501). -/
def contStreamErrPre : Text := "Continuation stream error: ".toList

/-- `format!("\n\n[Continuation Error: {}]", e)` (chat.rs:674). -/
def contNote (e : Text) : Text :=
  '\n' :: '\n' :: '[' :: ("Continuation Error: ".toList ++ e ++ [']'])

/-- Model of `continue_conversation_after_tools` (chat.rs:1377-1508), stream
part: open the continuation request and stream its tokens; it performs no tool
scanning and no tool execution. The assembly of the minimal message list does
not produce observable actions and is elided. -/
def continueAfterTools (contEv : List FEv) : List Act × TOut :=
  let ca := contTokens contEv
  (Act.openStream .xmlCont :: ca.1,
   match ca.2 with
   | .ok t => .ok t
   | .err m => .err (contStreamErrPre ++ m))

/-- `"Follow-up stream error: "` (chat.rs:892). -/
def followupErrPre : Text := "Follow-up stream error: ".toList

/-- The per-call actions of `execute_modern_tool_calls_and_continue`
(chat.rs:785-814): execute each accumulated call (no dedup) and emit one
`tool-call` event regardless of outcome. -/
def modernToolActs (toolExec : Text → Text → TOut) : List MTC → List Act
  | [] => []
  | c :: cs =>
    let out := toolExec c.name c.args
    let res := match out with | .ok r => r | .err e => errPre ++ e
    .execTool c.name c.args out :: .emit (.toolCall c.name c.args res) ::
      modernToolActs toolExec cs

/-- Model of `execute_modern_tool_calls_and_continue` (chat.rs:769-898):
execute the calls, open the follow-up stream and consume it; a follow-up
stream error is returned as an error (propagated by the caller). -/
def modernExec (toolExec : Text → Text → TOut) (calls : List MTC) (mctEv : List FEv) :
    List Act × TOut :=
  let ca := contTokens mctEv
  (modernToolActs toolExec calls ++ Act.openStream .modernCont :: ca.1,
   match ca.2 with
   | .ok t => .ok t
   | .err m => .err (followupErrPre ++ m))

/-- Model of `process_stream_with_tool_calls` (chat.rs:477-690): run the loop,
then — mirroring chat.rs:627-688 — either execute accumulated modern calls and
their follow-up (errors propagate), or, in the XML format, when the
continuation-needed flag is set and a response block is present, run the
continuation (its error is caught: the bracketed note is appended and emitted,
and the call still returns successfully). Returns the final loop state, the
post-loop actions, and the returned full response (or a propagated error). -/
def processStream (parse : Text → Option ToolCall) (toolExec : Text → Text → TOut)
    (useModern : Bool) (events : List Ev) (contEv mctEv : List FEv) :
    LoopState × List Act × TOut :=
  let st := runLoop parse toolExec useModern events initState
  match useModern && !st.modernCalls.isEmpty with
  | true =>
    let ma := modernExec toolExec st.modernCalls mctEv
    (match ma.2 with
     | .ok t => (st, ma.1, .ok (st.fullResponse ++ t))
     | .err e => (st, ma.1, .err e))
  | false =>
    match !useModern && st.needsCont with
    | true =>
      (match check_if_continuation_needed st.fullResponse with
       | true =>
         let ca := continueAfterTools contEv
         (match ca.2 with
          | .ok t =>
            (st, ca.1,
             .ok (match (trimChars t).isEmpty with
                  | false => st.fullResponse ++ t
                  | true => st.fullResponse))
          | .err e =>
            let note := contNote e
            (st, ca.1 ++ [.emit (.token note false)], .ok (st.fullResponse ++ note)))
       | false => (st, [], .ok st.fullResponse))
    | false => (st, [], .ok st.fullResponse)

/-- The literal stream id used when no session id was supplied
(chat.rs:1295). -/
def tempId : Text := "temp".toList

/-- Model of `chat_with_loaded_model_streaming` (chat.rs:1198-1375) from the
point the backend stream request is issued: the stream is opened first
(chat.rs:1285-1291), then the cancellation channel is registered under the
session id or `"temp"` (chat.rs:1293-1300), the stream is processed, the id is
removed from the registry (chat.rs:1321-1324), the terminal `chat-token` event
is emitted with the cancelled flag and captured usage (chat.rs:1327-1341), and
a `chat-usage` event follows when usage was captured (chat.rs:1343-1352). A
propagated error from stream processing skips the cleanup and the terminal
event (the `?` at chat.rs:1318). -/
def chatTurn (parse : Text → Option ToolCall) (toolExec : Text → Text → TOut)
    (modelName : Text) (sessionId : Option Text) (events : List Ev)
    (contEv mctEv : List FEv) : List Act × TOut :=
  let useModern := should_use_modern_tool_format modelName
  let sid := sessionId.getD tempId
  let r := processStream parse toolExec useModern events contEv mctEv
  match r.2.2 with
  | .ok resp =>
    (Act.openStream .primary :: Act.registerStream sid ::
      (r.1.acts ++ r.2.1 ++
        Act.deregisterStream sid :: Act.emit (.terminal r.1.wasCancelled r.1.usage) ::
          (match r.1.usage with
           | some u => [Act.emit (.usageEv u)]
           | none => [])),
     .ok resp)
  | .err e =>
    (Act.openStream .primary :: Act.registerStream sid :: (r.1.acts ++ r.2.1), .err e)

/-- The action trace of a chat turn. -/
def chatTurnTrace (parse : Text → Option ToolCall) (toolExec : Text → Text → TOut)
    (modelName : Text) (sessionId : Option Text) (events : List Ev)
    (contEv mctEv : List FEv) : List Act :=
  (chatTurn parse toolExec modelName sessionId events contEv mctEv).1

/-- The loop state at the end of the streaming loop of a turn. -/
def loopFinal (parse : Text → Option ToolCall) (toolExec : Text → Text → TOut)
    (modelName : Text) (events : List Ev) : LoopState :=
  runLoop parse toolExec (should_use_modern_tool_format modelName) events initState

/-! ## The stream cancellation registry

`ACTIVE_STREAMS` (chat.rs:37-40) is a `HashMap<String, Sender>`; modelled as an
association list with at most one binding per key (insert replaces). Senders
are identified by numbers. -/

/-- The registry state. -/
abbrev Registry := List (Text × Nat)

/-- `HashMap::remove`: the removed binding, if any, and the remaining map. -/
def hmRemove (k : Text) : Registry → Option Nat × Registry
  | [] => (none, [])
  | (k', v) :: rest =>
    if k' = k then (some v, rest)
    else
      let r := hmRemove k rest
      (r.1, (k', v) :: r.2)

/-- `HashMap::insert`: replaces any existing binding for the key. -/
def hmInsert (k : Text) (v : Nat) (m : Registry) : Registry := (k, v) :: (hmRemove k m).2

/-- `HashMap::get`-style lookup. -/
def hmLookup (k : Text) : Registry → Option Nat
  | [] => none
  | (k', v) :: rest => if k' = k then some v else hmLookup k rest

/-- `"Streaming stopped for session: "` (chat.rs:1171). -/
def stoppedPre : Text := "Streaming stopped for session: ".toList

/-- `"No active streaming session found: "` (chat.rs:1174). -/
def notFoundPre : Text := "No active streaming session found: ".toList

/-- Model of `stop_chat_streaming` (chat.rs:1162-1176): remove the sender for
the id; if one was found, send the cancellation signal (the boolean) and
return `Ok`; otherwise return an `Err` (the registry is left unchanged).
Result components: command result, registry afterwards, whether a signal was
sent. -/
def stop_chat_streaming (streams : Registry) (sessionId : Text) :
    TOut × Registry × Bool :=
  let r := hmRemove sessionId streams
  match r.1 with
  | some _ => (.ok (stoppedPre ++ sessionId), r.2, true)
  | none => (.err (notFoundPre ++ sessionId), streams, false)

/-! ## Act classifiers and trace projections used by the claims -/

/-- Actions that the streaming loop itself can add to the trace. -/
def isLoopAct : Act → Bool
  | .execTool _ _ _ => true
  | .emit (.token _ _) => true
  | .emit (.toolCall _ _ _) => true
  | .emit (.chatError _) => true
  | _ => false

/-- Actions that the XML continuation path can add to the trace. -/
def isPostAct : Act → Bool
  | .openStream .xmlCont => true
  | .emit (.token _ _) => true
  | _ => false

/-- Is this act the terminal finished event? -/
def isTerminalEmit : Act → Bool
  | .emit (.terminal _ _) => true
  | _ => false

/-- Is this act a registry registration or deregistration? -/
def isRegistryAct : Act → Bool
  | .registerStream _ => true
  | .deregisterStream _ => true
  | _ => false

/-- Is this act the opening of the XML continuation stream? -/
def isXmlContOpen : Act → Bool
  | .openStream .xmlCont => true
  | _ => false

/-- The (name, arguments) pair of a tool-execution act. -/
def execNA? : Act → Option (Text × Text)
  | .execTool n g _ => some (n, g)
  | _ => none

/-- The dedup signatures of the tool executions recorded in a trace. -/
def execSigs (l : List Act) : List Text := (l.filterMap execNA?).map sigOf

/-- The payload of a `tool-call` event act. -/
def toolCallPayload? : Act → Option (Text × Text × Text)
  | .emit (.toolCall n g r) => some (n, g, r)
  | _ => none

/-- The payload of a successful tool-execution act. -/
def okExecPayload? : Act → Option (Text × Text × Text)
  | .execTool n g (.ok r) => some (n, g, r)
  | _ => none

/-- The payloads of the `tool-call` events in a trace. -/
def toolCallEmits (l : List Act) : List (Text × Text × Text) :=
  l.filterMap toolCallPayload?

/-- The payloads of the successful tool executions in a trace. -/
def okExecs (l : List Act) : List (Text × Text × Text) :=
  l.filterMap okExecPayload?

/-! ## Concrete inputs used by counterexamples and witnesses -/

/-- The payload `\x7b"name": "g", "arguments": \x7b\x7d\x7d` of a well-formed
call block (a JSON object with a string `name` and an object `arguments`). -/
def gJson : Text :=
  ['\x7b', '"', 'n', 'a', 'm', 'e', '"', ':', ' ', '"', 'g', '"', ',', ' ',
   '"', 'a', 'r', 'g', 'u', 'm', 'e', 'n', 't', 's', '"', ':', ' ', '\x7b', '\x7d', '\x7d']

/-- The function name `serde_json` reads out of `gJson`. -/
def gName : Text := ['g']

/-- The re-serialized `arguments` object of `gJson` (`\x7b\x7d`). -/
def gArgs : Text := ['\x7b', '\x7d']

/-- JSON oracle consistent with `serde_json` on the concrete payloads used
here: `gJson` parses to the invocation `(gName, gArgs)`, anything else is
treated as malformed. -/
def cexParse : Text → Option ToolCall := fun c => if c = gJson then some (gName, gArgs) else none

/-- Tool-execution oracle: every call succeeds with result `R`. -/
def cexExecOk : Text → Text → TOut := fun _ _ => .ok ['R']

/-- Tool-execution oracle: every call fails with error `B`. -/
def cexExecErr : Text → Text → TOut := fun _ _ => .err ['B']

/-- A complete, well-formed call block. -/
def cexBlock : Text := openTagL ++ gJson ++ closeTagL

/-- A stream choice carrying the call block as content. -/
def cexChoice : Choice := ⟨[], some cexBlock, false⟩

/-- Backend items: one content chunk with a complete call block, then the
cancellation race is won. -/
def cexEventsCancel : List Ev := [.chunk none [cexChoice], .cancel]

/-- Backend items: one content chunk with a complete call block, then the
stream ends. -/
def cexEventsPlain : List Ev := [.chunk none [cexChoice]]

/-- A model name. -/
def cexModel : Text := ['m']

/-! ## Helper lemmas: prefixes, drops, occurrence scans -/

theorem nil_isPrefixOf (l : Text) : (List.isPrefixOf [] l) = true := by
  cases l <;> simp [List.isPrefixOf]

theorem cons_isPrefixOf_cons {x y : Char} {p l : Text} :
    ((x :: p).isPrefixOf (y :: l)) = true ↔ x = y ∧ p.isPrefixOf l = true := by
  simp [List.isPrefixOf]

theorem cons_isPrefixOf_nil {x : Char} {p : Text} :
    ((x :: p).isPrefixOf ([] : Text)) = false := rfl

theorem headOfPref {x : Char} {p l : Text} (h : (x :: p).isPrefixOf l = true) :
    l.head? = some x := by
  cases l with
  | nil => exact absurd h (by simp [cons_isPrefixOf_nil])
  | cons y l' =>
    obtain ⟨rfl, -⟩ := cons_isPrefixOf_cons.mp h
    rfl

theorem prefLen {p l : Text} (h : p.isPrefixOf l = true) : p.length ≤ l.length := by
  induction p generalizing l with
  | nil => simp
  | cons x p ih =>
    cases l with
    | nil => exact absurd h (by simp [cons_isPrefixOf_nil])
    | cons y l' =>
      obtain ⟨-, h2⟩ := cons_isPrefixOf_cons.mp h
      simpa using ih h2

theorem prefOfAppendLeft {p a b : Text} (h : p.isPrefixOf (a ++ b) = true)
    (hlen : p.length ≤ a.length) : p.isPrefixOf a = true := by
  induction p generalizing a with
  | nil => exact nil_isPrefixOf a
  | cons x p ih =>
    cases a with
    | nil => simp at hlen
    | cons y a' =>
      rw [List.cons_append] at h
      obtain ⟨rfl, h2⟩ := cons_isPrefixOf_cons.mp h
      exact cons_isPrefixOf_cons.mpr ⟨rfl, ih h2 (by simpa using hlen)⟩

theorem prefDropAppend {p a b : Text} (h : p.isPrefixOf (a ++ b) = true)
    (hlen : a.length ≤ p.length) : (p.drop a.length).isPrefixOf b = true := by
  induction a generalizing p with
  | nil => simpa using h
  | cons y a' ih =>
    cases p with
    | nil => simp at hlen
    | cons x p' =>
      rw [List.cons_append] at h
      obtain ⟨-, h2⟩ := cons_isPrefixOf_cons.mp h
      simpa using ih h2 (by simpa using hlen)

theorem selfPref (p r : Text) : p.isPrefixOf (p ++ r) = true := by
  induction p with
  | nil => exact nil_isPrefixOf r
  | cons x p ih => exact cons_isPrefixOf_cons.mpr ⟨rfl, ih⟩

theorem prefTake {p l : Text} (h : p.isPrefixOf l = true) (n : Nat) :
    (p.take n).isPrefixOf (l.take n) = true := by
  induction n generalizing p l with
  | zero => simp [nil_isPrefixOf]
  | succ n ih =>
    cases p with
    | nil => simpa using nil_isPrefixOf (l.take (n + 1))
    | cons x p' =>
      cases l with
      | nil => exact absurd h (by simp [cons_isPrefixOf_nil])
      | cons y l' =>
        obtain ⟨rfl, h2⟩ := cons_isPrefixOf_cons.mp h
        simp only [List.take_succ_cons]
        exact cons_isPrefixOf_cons.mpr ⟨rfl, ih h2⟩

theorem drop_append_ge (a b : Text) : ∀ j, a.length ≤ j →
    (a ++ b).drop j = b.drop (j - a.length) := by
  induction a with
  | nil => intro j _; simp
  | cons x a ih =>
    intro j hj
    cases j with
    | zero => simp at hj
    | succ j' => simpa [Nat.succ_sub_succ] using ih j' (by simpa using hj)

theorem drop_append_lt (a b : Text) : ∀ j, j < a.length →
    (a ++ b).drop j = a.drop j ++ b := by
  induction a with
  | nil => intro j hj; simp at hj
  | cons x a ih =>
    intro j hj
    cases j with
    | zero => simp
    | succ j' => simpa using ih j' (by simpa using hj)

theorem take_append_le (a b : Text) : ∀ j, j ≤ a.length →
    (a ++ b).take j = a.take j := by
  induction a with
  | nil =>
    intro j hj
    simp at hj
    simp [hj]
  | cons x a ih =>
    intro j hj
    cases j with
    | zero => simp
    | succ j' => simpa using ih j' (by simpa using hj)

theorem head_drop_mem {A : Text} {j : Nat} {c : Char} {ts : Text}
    (h : A.drop j = c :: ts) (hj : 1 ≤ j) : c ∈ A.drop 1 := by
  have h2 : (A.drop 1).drop (j - 1) = A.drop j := by
    rw [List.drop_drop]
    congr 1
    omega
  have hmem : c ∈ (A.drop 1).drop (j - 1) := by
    rw [h2, h]
    exact List.mem_cons_self c ts
  exact List.drop_subset _ _ hmem

theorem listFind?_nil {pat : Text} (hp : pat ≠ []) : listFind? pat [] = none := by
  cases pat with
  | nil => exact absurd rfl hp
  | cons x p => simp [listFind?, cons_isPrefixOf_nil]

theorem listFind?_cons_eq_none {pat : Text} {c : Char} {rest : Text} :
    listFind? pat (c :: rest) = none ↔
      pat.isPrefixOf (c :: rest) = false ∧ listFind? pat rest = none := by
  cases hpre : pat.isPrefixOf (c :: rest) with
  | true => simp [listFind?, hpre]
  | false => simp [listFind?, hpre, Option.map_eq_none']

theorem listFind?_eq_none_iff {pat : Text} (hp : pat ≠ []) {l : Text} :
    listFind? pat l = none ↔ ∀ j, pat.isPrefixOf (l.drop j) = false := by
  induction l with
  | nil =>
    rw [listFind?_nil hp]
    simp only [List.drop_nil]
    constructor
    · intro _ j
      cases pat with
      | nil => exact absurd rfl hp
      | cons x p => exact cons_isPrefixOf_nil
    · intro _; trivial
  | cons c rest ih =>
    rw [listFind?_cons_eq_none, ih]
    constructor
    · rintro ⟨h0, hrest⟩ j
      cases j with
      | zero => simpa using h0
      | succ j' => simpa using hrest j'
    · intro h
      exact ⟨by simpa using h 0, fun j => by simpa using h (j + 1)⟩

theorem occursIn_eq_false_iff_none {pat l : Text} :
    occursIn pat l = false ↔ listFind? pat l = none := by
  unfold occursIn
  cases listFind? pat l <;> simp

theorem occursIn_eq_false_iff {pat : Text} (hp : pat ≠ []) {l : Text} :
    occursIn pat l = false ↔ ∀ j, pat.isPrefixOf (l.drop j) = false := by
  rw [occursIn_eq_false_iff_none, listFind?_eq_none_iff hp]

theorem occursIn_nil {pat : Text} (hp : pat ≠ []) : occursIn pat [] = false := by
  rw [occursIn_eq_false_iff_none]
  exact listFind?_nil hp

theorem listRevFind?_nil {pat : Text} (hp : pat ≠ []) : listRevFind? pat [] = none := by
  cases pat with
  | nil => exact absurd rfl hp
  | cons x p => simp [listRevFind?, cons_isPrefixOf_nil]

theorem listRevFind?_cons_eq_none {pat : Text} {c : Char} {rest : Text} :
    listRevFind? pat (c :: rest) = none ↔
      pat.isPrefixOf (c :: rest) = false ∧ listRevFind? pat rest = none := by
  cases hr : listRevFind? pat rest with
  | some i => simp [listRevFind?, hr]
  | none =>
    cases hpre : pat.isPrefixOf (c :: rest) with
    | true => simp [listRevFind?, hr, hpre]
    | false => simp [listRevFind?, hr, hpre]

theorem listRevFind?_eq_none_iff {pat : Text} (hp : pat ≠ []) {l : Text} :
    listRevFind? pat l = none ↔ ∀ j, pat.isPrefixOf (l.drop j) = false := by
  induction l with
  | nil =>
    rw [listRevFind?_nil hp]
    simp only [List.drop_nil]
    constructor
    · intro _ j
      cases pat with
      | nil => exact absurd rfl hp
      | cons x p => exact cons_isPrefixOf_nil
    · intro _; trivial
  | cons c rest ih =>
    rw [listRevFind?_cons_eq_none, ih]
    constructor
    · rintro ⟨h0, hrest⟩ j
      cases j with
      | zero => simpa using h0
      | succ j' => simpa using hrest j'
    · intro h
      exact ⟨by simpa using h 0, fun j => by simpa using h (j + 1)⟩

/-! ### Boundary lemmas

The delimiters all start with `<` and contain no further `<`; a pattern of
that shape cannot begin inside another such delimiter, nor straddle a boundary
whose right side starts with `<`. -/

theorem no_straddle {P y : Text} (hP2 : '<' ∉ P.drop 1) (hy : y.head? = some '<')
    {m : Nat} (hm1 : 1 ≤ m) (hm2 : m < P.length)
    (h : (P.drop m).isPrefixOf y = true) : False := by
  cases hd : P.drop m with
  | nil =>
    have := List.drop_eq_nil_iff_le.mp hd
    omega
  | cons c ts =>
    have hcm : c ∈ P.drop 1 := head_drop_mem hd hm1
    rw [hd] at h
    have h2 := headOfPref h
    rw [hy] at h2
    have hc : c = '<' := by simpa using h2.symm
    exact hP2 (hc ▸ hcm)

theorem noOccur_after_tag {A P content : Text} (hA : '<' ∉ A.drop 1)
    (hP : P.head? = some '<')
    (hk : ∃ k, k ≤ A.length ∧ (P.take k).isPrefixOf (A.take k) = false)
    (hc : occursIn P content = false) :
    occursIn P (A ++ content) = false := by
  obtain ⟨Ptl, rfl⟩ : ∃ t, P = '<' :: t := by
    cases P with
    | nil => simp at hP
    | cons a b =>
      have ha : a = '<' := by simpa using hP
      exact ⟨b, by rw [ha]⟩
  have hPne : ('<' :: Ptl) ≠ ([] : Text) := by simp
  rw [occursIn_eq_false_iff hPne]
  intro j
  rcases Nat.lt_or_ge j A.length with hj | hj
  · rw [drop_append_lt A content j hj]
    rcases Nat.eq_zero_or_pos j with rfl | hj1
    · simp only [List.drop_zero]
      cases hpre : ('<' :: Ptl).isPrefixOf (A ++ content) with
      | false => rfl
      | true =>
        exfalso
        obtain ⟨k, hk1, hk2⟩ := hk
        have htk := prefTake hpre k
        rw [take_append_le A content k hk1] at htk
        rw [htk] at hk2
        cases hk2
    · cases hd : A.drop j with
      | nil =>
        have := List.drop_eq_nil_iff_le.mp hd
        omega
      | cons c ts =>
        have hcm : c ∈ A.drop 1 := head_drop_mem hd hj1
        have hcne : c ≠ '<' := fun h => hA (h ▸ hcm)
        cases hpre : ('<' :: Ptl).isPrefixOf ((c :: ts) ++ content) with
        | false => rfl
        | true =>
          exfalso
          have hh := headOfPref hpre
          simp at hh
          exact hcne hh
  · rw [drop_append_ge A content j hj]
    exact (occursIn_eq_false_iff hPne).mp hc (j - A.length)

theorem noOccur_glue {P x y : Text} (hP : P.head? = some '<') (hP2 : '<' ∉ P.drop 1)
    (hy : y.head? = some '<') (hx : occursIn P x = false) (hyo : occursIn P y = false) :
    occursIn P (x ++ y) = false := by
  have hPne : P ≠ [] := by cases P <;> simp_all
  rw [occursIn_eq_false_iff hPne]
  intro j
  rcases Nat.lt_or_ge j x.length with hj | hj
  · rw [drop_append_lt x y j hj]
    cases hpre : P.isPrefixOf (x.drop j ++ y) with
    | false => rfl
    | true =>
      exfalso
      have hmlen : (x.drop j).length = x.length - j := by simp
      rcases Nat.lt_or_ge (x.length - j) P.length with hlt | hge
      · have h2 := prefDropAppend hpre (by omega)
        rw [hmlen] at h2
        exact no_straddle hP2 hy (by omega) hlt h2
      · have h2 := prefOfAppendLeft hpre (by omega)
        have h3 := (occursIn_eq_false_iff hPne).mp hx j
        rw [h2] at h3
        cases h3
  · rw [drop_append_ge x y j hj]
    exact (occursIn_eq_false_iff hPne).mp hyo (j - x.length)

theorem listFind?_after (P x R : Text) (hP : P.head? = some '<') (hP2 : '<' ∉ P.drop 1)
    (hx : occursIn P x = false) :
    listFind? P (x ++ P ++ R) = some x.length := by
  have hPne : P ≠ [] := by cases P <;> simp_all
  have hPR : (P ++ R).head? = some '<' := by
    cases P with
    | nil => exact absurd rfl hPne
    | cons a b => simpa using hP
  induction x with
  | nil =>
    simp only [List.nil_append, List.length_nil]
    obtain ⟨a, b, rfl⟩ : ∃ a b, P = a :: b := by
      cases P with
      | nil => exact absurd rfl hPne
      | cons a b => exact ⟨a, b, rfl⟩
    rw [List.cons_append, listFind?]
    have hself : (a :: b).isPrefixOf (a :: (b ++ R)) = true := selfPref (a :: b) R
    simp [hself]
  | cons c x' ih =>
    have hx0 := occursIn_eq_false_iff_none.mp hx
    obtain ⟨h0, hrest⟩ := listFind?_cons_eq_none.mp hx0
    have hx' : occursIn P x' = false := occursIn_eq_false_iff_none.mpr hrest
    have hnot : P.isPrefixOf (c :: (x' ++ (P ++ R))) = false := by
      cases hpre : P.isPrefixOf (c :: (x' ++ (P ++ R))) with
      | false => rfl
      | true =>
        exfalso
        have hshape : c :: (x' ++ (P ++ R)) = (c :: x') ++ (P ++ R) := by simp
        rw [hshape] at hpre
        rcases Nat.lt_or_ge (c :: x').length P.length with hlt | hge
        · have h2 := prefDropAppend hpre (by omega)
          exact no_straddle hP2 hPR (by simp) hlt h2
        · have h2 := prefOfAppendLeft hpre (by omega)
          rw [h0] at h2
          cases h2
    rw [List.append_assoc, List.cons_append, listFind?]
    rw [List.append_assoc] at ih
    simp [hnot, ih hx']

theorem listRevFind?_last (P W tail : Text) (hP : P.head? = some '<')
    (hP2 : '<' ∉ P.drop 1) (ht : occursIn P tail = false) :
    listRevFind? P (W ++ (P ++ tail)) = some W.length := by
  have hPne : P ≠ [] := by cases P <;> simp_all
  induction W with
  | nil =>
    simp only [List.nil_append, List.length_nil]
    obtain ⟨Ptl, rfl⟩ : ∃ t, P = '<' :: t := by
      cases P with
      | nil => exact absurd rfl hPne
      | cons a b =>
        have ha : a = '<' := by simpa using hP
        exact ⟨b, by rw [ha]⟩
    have hP2' : '<' ∉ Ptl := by simpa using hP2
    rw [List.cons_append, listRevFind?]
    have hnone : listRevFind? ('<' :: Ptl) (Ptl ++ tail) = none := by
      rw [listRevFind?_eq_none_iff (by simp)]
      intro j
      rcases Nat.lt_or_ge j Ptl.length with hj | hj
      · rw [drop_append_lt Ptl tail j hj]
        cases hd : Ptl.drop j with
        | nil =>
          have := List.drop_eq_nil_iff.mp hd
          omega
        | cons cc ts =>
          cases hpre : ('<' :: Ptl).isPrefixOf ((cc :: ts) ++ tail) with
          | false => rfl
          | true =>
            exfalso
            have hccm : cc ∈ Ptl := by
              have hmem : cc ∈ Ptl.drop j := by
                rw [hd]
                exact List.mem_cons_self cc ts
              exact List.drop_subset _ _ hmem
            have hh := headOfPref hpre
            simp at hh
            exact hP2' (hh ▸ hccm)
      · rw [drop_append_ge Ptl tail j hj]
        exact (occursIn_eq_false_iff hPne).mp ht (j - Ptl.length)
    rw [hnone]
    have hself : ('<' :: Ptl).isPrefixOf ('<' :: (Ptl ++ tail)) = true :=
      selfPref ('<' :: Ptl) tail
    simp [hself]
  | cons w W' ih =>
    rw [List.cons_append, listRevFind?, ih]
    simp

/-! ### The extraction loop on well-formed block renderings -/

theorem openTagL_ne : openTagL ≠ [] := by decide

theorem extract_lead_nil (parse : Text → Option ToolCall) :
    ∀ (lead : Text) (fuel : Nat), occursIn openTagL lead = false →
      extractFuel parse fuel (lead ++ []) = [] := by
  intro lead fuel h
  cases fuel with
  | zero => rfl
  | succ f =>
    simp only [List.append_nil, extractFuel]
    rw [occursIn_eq_false_iff_none.mp h]

theorem extract_lead_open (parse : Text → Option ToolCall) (tail : Text)
    (ht : occursIn closeTagL tail = false) :
    ∀ (lead : Text) (fuel : Nat), occursIn openTagL lead = false →
      extractFuel parse fuel (lead ++ (openTagL ++ tail)) = [] := by
  intro lead fuel h
  cases fuel with
  | zero => rfl
  | succ f =>
    have h1 : listFind? openTagL (lead ++ (openTagL ++ tail)) = some lead.length := by
      have := listFind?_after openTagL lead tail (by decide) (by decide) h
      simpa [List.append_assoc] using this
    have h2 : listFind? closeTagL (openTagL ++ tail) = none :=
      occursIn_eq_false_iff_none.mp
        (noOccur_after_tag (by decide) (by decide) ⟨2, by decide, by decide⟩ ht)
    simp only [extractFuel, h1, List.drop_left, h2]

theorem openTagL_length : openTagL.length = 11 := rfl

theorem closeTagL_length : closeTagL.length = 12 := rfl

theorem extractFuel_render (parse : Text → Option ToolCall) (ending : Text)
    (hend : ∀ (lead : Text) (fuel : Nat), occursIn openTagL lead = false →
      extractFuel parse fuel (lead ++ ending) = []) :
    ∀ (bs : List (Text × ToolCall × Text)) (lead : Text) (fuel : Nat),
      (lead ++ (renderBlocks bs ++ ending)).length ≤ fuel →
      occursIn openTagL lead = false →
      (∀ b ∈ bs, occursIn closeTagL b.1 = false ∧ occursIn openTagL b.2.2 = false ∧
        parse b.1 = some b.2.1) →
      extractFuel parse fuel (lead ++ (renderBlocks bs ++ ending)) =
        bs.map (fun b => b.2.1) := by
  intro bs
  induction bs with
  | nil =>
    intro lead fuel _ hlead _
    simpa [renderBlocks] using hend lead fuel hlead
  | cons b bs ih =>
    intro lead fuel hfuel hlead hbs
    obtain ⟨c, call, trail⟩ := b
    obtain ⟨hb1, hb2, hb3⟩ := hbs _ (List.mem_cons_self _ bs)
    have hbs' := fun x hx => hbs x (List.mem_cons_of_mem _ hx)
    cases fuel with
    | zero =>
      exfalso
      simp only [renderBlocks, List.length_append, openTagL_length, closeTagL_length,
        Nat.le_zero] at hfuel
      omega
    | succ f =>
      have hT : lead ++ (renderBlocks ((c, call, trail) :: bs) ++ ending)
          = lead ++ (openTagL ++ (c ++ (closeTagL ++ (trail ++ (renderBlocks bs ++ ending))))) := by
        simp [renderBlocks, List.append_assoc]
      rw [hT]
      have hfind1 : listFind? openTagL
          (lead ++ (openTagL ++ (c ++ (closeTagL ++ (trail ++ (renderBlocks bs ++ ending))))))
          = some lead.length := by
        have := listFind?_after openTagL lead
          (c ++ (closeTagL ++ (trail ++ (renderBlocks bs ++ ending))))
          (by decide) (by decide) hlead
        simpa [List.append_assoc] using this
      have hnoc : occursIn closeTagL (openTagL ++ c) = false :=
        noOccur_after_tag (by decide) (by decide) ⟨2, by decide, by decide⟩ hb1
      have hfind2 : listFind? closeTagL
          (openTagL ++ (c ++ (closeTagL ++ (trail ++ (renderBlocks bs ++ ending)))))
          = some (openTagL.length + c.length) := by
        have := listFind?_after closeTagL (openTagL ++ c)
          (trail ++ (renderBlocks bs ++ ending)) (by decide) (by decide) hnoc
        simpa [List.append_assoc, List.length_append] using this
      have hcontent : (c ++ (closeTagL ++ (trail ++ (renderBlocks bs ++ ending)))).take
          ((openTagL.length + c.length) - openTagL.length) = c := by
        have harith : openTagL.length + c.length - openTagL.length = c.length := by omega
        rw [harith]
        exact List.take_left c _
      have hrest : (lead ++ (openTagL ++ (c ++ (closeTagL ++ (trail ++ (renderBlocks bs ++ ending)))))).drop
          (lead.length + (openTagL.length + c.length) + closeTagL.length)
          = trail ++ (renderBlocks bs ++ ending) := by
        have h1 : lead ++ (openTagL ++ (c ++ (closeTagL ++ (trail ++ (renderBlocks bs ++ ending)))))
            = (lead ++ openTagL ++ c ++ closeTagL) ++ (trail ++ (renderBlocks bs ++ ending)) := by
          simp [List.append_assoc]
        rw [h1]
        have h2 : (lead ++ openTagL ++ c ++ closeTagL).length
            = lead.length + (openTagL.length + c.length) + closeTagL.length := by
          simp [List.length_append]
          omega
        rw [← h2]
        exact List.drop_left _ _
      have hb3' : parse c = some call := hb3
      simp only [extractFuel, hfind1, List.drop_left, hfind2, hcontent, hb3', hrest]
      have hlen : (trail ++ (renderBlocks bs ++ ending)).length ≤ f := by
        simp only [renderBlocks, List.length_append, openTagL_length, closeTagL_length] at hfuel ⊢
        omega
      rw [ih trail f hlen hb2 hbs']
      simp

/-- Claim C1: for any text consisting of prose without call-open delimiters
interleaved with N well-formed, non-overlapping call blocks whose payloads the
JSON oracle accepts, the extractor returns exactly the N invocations in
left-to-right document order; if a trailing unterminated block (an open
delimiter followed by text with no close delimiter) is appended, the extractor
still returns exactly N invocations and `has_incomplete_tool_call` is true. -/
theorem extract_completeness (parse : Text → Option ToolCall) (lead : Text)
    (bs : List (Text × ToolCall × Text)) (tail : Text)
    (hlead : occursIn openTagL lead = false)
    (hbs : ∀ b ∈ bs, occursIn closeTagL b.1 = false ∧ occursIn openTagL b.2.2 = false ∧
      parse b.1 = some b.2.1)
    (ht1 : occursIn openTagL tail = false)
    (ht2 : occursIn closeTagL tail = false) :
    extract_all_tool_calls_from_xml parse (lead ++ renderBlocks bs) =
      bs.map (fun b => b.2.1) ∧
    extract_all_tool_calls_from_xml parse (lead ++ renderBlocks bs ++ openTagL ++ tail) =
      bs.map (fun b => b.2.1) ∧
    has_incomplete_tool_call (lead ++ renderBlocks bs ++ openTagL ++ tail) = true := by
  refine ⟨?_, ?_, ?_⟩
  · have := extractFuel_render parse [] (extract_lead_nil parse) bs lead
      (lead ++ (renderBlocks bs ++ [])).length (le_refl _) hlead hbs
    simpa [extract_all_tool_calls_from_xml] using this
  · have := extractFuel_render parse (openTagL ++ tail) (extract_lead_open parse tail ht2)
      bs lead (lead ++ (renderBlocks bs ++ (openTagL ++ tail))).length (le_refl _) hlead hbs
    simpa [extract_all_tool_calls_from_xml, List.append_assoc] using this
  · have h1 : listRevFind? openTagL ((lead ++ renderBlocks bs) ++ (openTagL ++ tail))
        = some (lead ++ renderBlocks bs).length :=
      listRevFind?_last openTagL (lead ++ renderBlocks bs) tail (by decide) (by decide) ht1
    have h2 : listFind? closeTagL (openTagL ++ tail) = none :=
      occursIn_eq_false_iff_none.mp
        (noOccur_after_tag (by decide) (by decide) ⟨2, by decide, by decide⟩ ht2)
    have hshape : lead ++ renderBlocks bs ++ openTagL ++ tail
        = (lead ++ renderBlocks bs) ++ (openTagL ++ tail) := by
      simp [List.append_assoc]
    rw [hshape]
    simp only [has_incomplete_tool_call, h1, List.drop_left, h2]

/-- Witness for C1 at a concrete input: prose `hi`, one well-formed block with
payload `gJson`, trailing prose `ok`, unterminated tail `p`. -/
theorem extract_completeness_witness :
    extract_all_tool_calls_from_xml cexParse
      (['h', 'i'] ++ renderBlocks [(gJson, (gName, gArgs), ['o', 'k'])]) = [(gName, gArgs)] ∧
    extract_all_tool_calls_from_xml cexParse
      (['h', 'i'] ++ renderBlocks [(gJson, (gName, gArgs), ['o', 'k'])] ++ openTagL ++ ['p'])
      = [(gName, gArgs)] ∧
    has_incomplete_tool_call
      (['h', 'i'] ++ renderBlocks [(gJson, (gName, gArgs), ['o', 'k'])] ++ openTagL ++ ['p'])
      = true := by
  have h := extract_completeness cexParse ['h', 'i'] [(gJson, (gName, gArgs), ['o', 'k'])]
    ['p'] (by decide) (by decide) (by decide) (by decide)
  exact h

/-! ### The stripper on block-free and block-only texts -/

theorem listFind?_of_pref {pat l : Text} (hne : pat ≠ []) (h : pat.isPrefixOf l = true) :
    listFind? pat l = some 0 := by
  cases l with
  | nil =>
    cases pat with
    | nil => exact absurd rfl hne
    | cons x p => exact absurd h (by simp [cons_isPrefixOf_nil])
  | cons y l' => simp [listFind?, h]

/-- Claim C7, counterexample: the text consisting of a space, `h`, and a space
contains no call block and no response block (not even a delimiter), yet the
stripper does not return it unchanged: it trims it to `h`. -/
theorem strip_roundtrip_cex :
    occursIn openTagL [' ', 'h', ' '] = false ∧
    occursIn respOpenL [' ', 'h', ' '] = false ∧
    strip_tool_xml_tags [' ', 'h', ' '] ≠ [' ', 'h', ' '] ∧
    strip_tool_xml_tags [' ', 'h', ' '] = ['h'] := by decide

theorem noOccur_open_joinResps (rs : List Text)
    (h : ∀ r ∈ rs, occursIn openTagL r = false) :
    occursIn openTagL (joinResps rs) = false := by
  induction rs with
  | nil => exact occursIn_nil (by decide)
  | cons r rs ih =>
    have hrest : occursIn openTagL (joinResps rs) = false :=
      ih fun x hx => h x (List.mem_cons_of_mem _ hx)
    have hx : occursIn openTagL (respCloseL ++ joinResps rs) = false :=
      noOccur_after_tag (by decide) (by decide) ⟨2, by decide, by decide⟩ hrest
    have hy : occursIn openTagL (r ++ (respCloseL ++ joinResps rs)) = false :=
      noOccur_glue (by decide) (by decide) (by rfl) (h r (List.mem_cons_self _ _)) hx
    have hall : occursIn openTagL (respOpenL ++ (r ++ (respCloseL ++ joinResps rs))) = false :=
      noOccur_after_tag (by decide) (by decide) ⟨7, by decide, by decide⟩ hy
    simpa [joinResps, List.append_assoc] using hall

theorem respOpenL_length : respOpenL.length = 15 := rfl

theorem respCloseL_length : respCloseL.length = 16 := rfl

theorem stripFuel_joinResps (rs : List Text) :
    ∀ fuel : Nat, (joinResps rs).length < fuel →
      (∀ r ∈ rs, occursIn openTagL r = false ∧ occursIn respCloseL r = false) →
      stripFuel fuel (joinResps rs) = [] := by
  induction rs with
  | nil =>
    intro fuel hfuel _
    cases fuel with
    | zero => rfl
    | succ f => rfl
  | cons r rs ih =>
    intro fuel hfuel hrs
    obtain ⟨hr1, hr2⟩ := hrs r (List.mem_cons_self _ _)
    have hrs' := fun x hx => hrs x (List.mem_cons_of_mem _ hx)
    cases fuel with
    | zero => exact absurd hfuel (by omega)
    | succ f =>
      have hT : joinResps (r :: rs) = respOpenL ++ (r ++ (respCloseL ++ joinResps rs)) := by
        simp [joinResps, List.append_assoc]
      rw [hT]
      have hfindO : listFind? openTagL (respOpenL ++ (r ++ (respCloseL ++ joinResps rs)))
          = none := by
        rw [← hT]
        exact occursIn_eq_false_iff_none.mp
          (noOccur_open_joinResps (r :: rs) fun x hx => (hrs x hx).1)
      have hfindR : listFind? respOpenL (respOpenL ++ (r ++ (respCloseL ++ joinResps rs)))
          = some 0 :=
        listFind?_of_pref (by decide) (selfPref respOpenL _)
      have hnoc : occursIn respCloseL (respOpenL ++ r) = false :=
        noOccur_after_tag (by decide) (by decide) ⟨2, by decide, by decide⟩ hr2
      have hfindC : listFind? respCloseL
          ((respOpenL ++ (r ++ (respCloseL ++ joinResps rs))).drop 0)
          = some (respOpenL.length + r.length) := by
        have := listFind?_after respCloseL (respOpenL ++ r) (joinResps rs)
          (by decide) (by decide) hnoc
        simpa [List.append_assoc, List.length_append] using this
      have hrest : (respOpenL ++ (r ++ (respCloseL ++ joinResps rs))).drop
          (0 + (respOpenL.length + r.length) + respCloseL.length) = joinResps rs := by
        have h1 : respOpenL ++ (r ++ (respCloseL ++ joinResps rs))
            = (respOpenL ++ r ++ respCloseL) ++ joinResps rs := by
          simp [List.append_assoc]
        rw [h1]
        have h2 : (respOpenL ++ r ++ respCloseL).length
            = 0 + (respOpenL.length + r.length) + respCloseL.length := by
          simp [List.length_append]
          omega
        rw [← h2]
        exact List.drop_left _ _
      simp only [stripFuel, hfindO, hfindR, hfindC, hrest, List.take_zero, List.nil_append]
      refine ih f ?_ hrs'
      have := hfuel
      simp only [hT, List.length_append, respOpenL_length, respCloseL_length] at this ⊢
      omega

theorem stripFuel_joinBoth (cs : List Text) (rs : List Text) :
    ∀ fuel : Nat, (joinCalls cs ++ joinResps rs).length < fuel →
      (∀ c ∈ cs, occursIn closeTagL c = false) →
      (∀ r ∈ rs, occursIn openTagL r = false ∧ occursIn respCloseL r = false) →
      stripFuel fuel (joinCalls cs ++ joinResps rs) = [] := by
  induction cs with
  | nil =>
    intro fuel hfuel _ hrs
    rw [show joinCalls [] ++ joinResps rs = joinResps rs from by simp [joinCalls]] at hfuel ⊢
    exact stripFuel_joinResps rs fuel hfuel hrs
  | cons c cs ih =>
    intro fuel hfuel hcs hrs
    have hc1 := hcs c (List.mem_cons_self _ _)
    have hcs' := fun x hx => hcs x (List.mem_cons_of_mem _ hx)
    cases fuel with
    | zero => exact absurd hfuel (by omega)
    | succ f =>
      have hT : joinCalls (c :: cs) ++ joinResps rs
          = openTagL ++ (c ++ (closeTagL ++ (joinCalls cs ++ joinResps rs))) := by
        simp [joinCalls, List.append_assoc]
      rw [hT]
      have hfindO : listFind? openTagL
          (openTagL ++ (c ++ (closeTagL ++ (joinCalls cs ++ joinResps rs)))) = some 0 :=
        listFind?_of_pref (by decide) (selfPref openTagL _)
      have hnoc : occursIn closeTagL (openTagL ++ c) = false :=
        noOccur_after_tag (by decide) (by decide) ⟨2, by decide, by decide⟩ hc1
      have hfindC : listFind? closeTagL
          ((openTagL ++ (c ++ (closeTagL ++ (joinCalls cs ++ joinResps rs)))).drop 0)
          = some (openTagL.length + c.length) := by
        have := listFind?_after closeTagL (openTagL ++ c) (joinCalls cs ++ joinResps rs)
          (by decide) (by decide) hnoc
        simpa [List.append_assoc, List.length_append] using this
      have hrest : (openTagL ++ (c ++ (closeTagL ++ (joinCalls cs ++ joinResps rs)))).drop
          (0 + (openTagL.length + c.length) + closeTagL.length)
          = joinCalls cs ++ joinResps rs := by
        have h1 : openTagL ++ (c ++ (closeTagL ++ (joinCalls cs ++ joinResps rs)))
            = (openTagL ++ c ++ closeTagL) ++ (joinCalls cs ++ joinResps rs) := by
          simp [List.append_assoc]
        rw [h1]
        have h2 : (openTagL ++ c ++ closeTagL).length
            = 0 + (openTagL.length + c.length) + closeTagL.length := by
          simp [List.length_append]
          omega
        rw [← h2]
        exact List.drop_left _ _
      simp only [stripFuel, hfindO, hfindC, hrest, List.take_zero, List.nil_append]
      refine ih f ?_ hcs' hrs
      have := hfuel
      simp only [hT, List.length_append, openTagL_length, closeTagL_length] at this ⊢
      omega

/-- Claim C7 (amended): the stripper returns a text containing no opening
delimiter of either kind trimmed of surrounding whitespace (not unchanged:
the source ends with `.trim()`, and text after an unterminated opening
delimiter is dropped); a text consisting only of complete call blocks followed
by complete response blocks, with delimiter-free payloads, is stripped to the
empty string. -/
theorem strip_blocks_amended :
    (∀ t : Text, occursIn openTagL t = false → occursIn respOpenL t = false →
      strip_tool_xml_tags t = trimChars t) ∧
    (∀ cs rs : List Text, (∀ c ∈ cs, occursIn closeTagL c = false) →
      (∀ r ∈ rs, occursIn openTagL r = false ∧ occursIn respCloseL r = false) →
      strip_tool_xml_tags (joinCalls cs ++ joinResps rs) = []) := by
  constructor
  · intro t h1 h2
    unfold strip_tool_xml_tags
    have e1 := occursIn_eq_false_iff_none.mp h1
    have e2 := occursIn_eq_false_iff_none.mp h2
    simp only [stripFuel, e1, e2]
  · intro cs rs hcs hrs
    unfold strip_tool_xml_tags
    rw [stripFuel_joinBoth cs rs _ (by omega) hcs hrs]
    rfl

/-- Witness for C7 (amended) at concrete inputs. -/
theorem strip_blocks_witness :
    strip_tool_xml_tags ['x', ' '] = trimChars ['x', ' '] ∧
    strip_tool_xml_tags (joinCalls [['a']] ++ joinResps [['r']]) = [] :=
  ⟨strip_blocks_amended.1 ['x', ' '] (by decide) (by decide),
   strip_blocks_amended.2 [['a']] [['r']] (by decide) (by decide)⟩

/-! ### Shapes of the actions each phase of the driver can produce -/

theorem isLoopAct_shapes {a : Act} (h : isLoopAct a = true) :
    isTerminalEmit a = false ∧ isRegistryAct a = false ∧ isXmlContOpen a = false ∧
    a ≠ Act.openStream .modernCont := by
  cases a with
  | openStream k => simp [isLoopAct] at h
  | registerStream i => exact ⟨rfl, by simp [isLoopAct] at h, rfl, by simp⟩
  | deregisterStream i => exact ⟨rfl, by simp [isLoopAct] at h, rfl, by simp⟩
  | execTool n g o => exact ⟨rfl, rfl, rfl, by simp⟩
  | emit e =>
    cases e with
    | token s f => exact ⟨rfl, rfl, rfl, by simp⟩
    | terminal c u => simp [isLoopAct] at h
    | toolCall n g r => exact ⟨rfl, rfl, rfl, by simp⟩
    | chatError m => exact ⟨rfl, rfl, rfl, by simp⟩
    | usageEv u => simp [isLoopAct] at h

theorem isPostAct_shapes {a : Act} (h : isPostAct a = true) :
    isTerminalEmit a = false ∧ isRegistryAct a = false ∧ execNA? a = none ∧
    toolCallPayload? a = none ∧ okExecPayload? a = none ∧
    a ≠ Act.openStream .modernCont := by
  cases a with
  | openStream k =>
    cases k with
    | primary => simp [isPostAct] at h
    | xmlCont => exact ⟨rfl, rfl, rfl, rfl, rfl, by simp⟩
    | modernCont => simp [isPostAct] at h
  | registerStream i => simp [isPostAct] at h
  | deregisterStream i => simp [isPostAct] at h
  | execTool n g o => simp [isPostAct] at h
  | emit e =>
    cases e with
    | token s f => exact ⟨rfl, rfl, rfl, rfl, rfl, by simp⟩
    | terminal c u => simp [isPostAct] at h
    | toolCall n g r => simp [isPostAct] at h
    | chatError m => simp [isPostAct] at h
    | usageEv u => simp [isPostAct] at h

theorem filterMap_nil_of_none {α β : Type} (f : α → Option β) :
    ∀ l : List α, (∀ a ∈ l, f a = none) → l.filterMap f = [] := by
  intro l
  induction l with
  | nil => intro _; rfl
  | cons x xs ih =>
    intro h
    rw [List.filterMap_cons, h x (List.mem_cons_self _ _)]
    exact ih fun a ha => h a (List.mem_cons_of_mem _ ha)

theorem processCalls_acts_mem (te : Text → Text → TOut) :
    ∀ (cs : List ToolCall) (st : LoopState) (a : Act),
      a ∈ (processCalls te cs st).acts → a ∈ st.acts ∨ isLoopAct a = true := by
  intro cs
  induction cs with
  | nil => intro st a h; exact Or.inl h
  | cons c cs ih =>
    intro st a h
    simp only [processCalls] at h
    by_cases hm : sigOf c ∈ st.executed
    · rw [if_pos hm] at h
      exact ih st a h
    · rw [if_neg hm] at h
      cases hout : te c.1 c.2 with
      | ok r =>
        rw [hout] at h
        rcases ih _ a h with hin | hl
        · simp only [List.mem_append, List.mem_cons, List.not_mem_nil, or_false] at hin
          rcases hin with hin | rfl | rfl | rfl
          · exact Or.inl hin
          · exact Or.inr rfl
          · exact Or.inr rfl
          · exact Or.inr rfl
        · exact Or.inr hl
      | err e =>
        rw [hout] at h
        rcases ih _ a h with hin | hl
        · simp only [List.mem_append, List.mem_cons, List.not_mem_nil, or_false] at hin
          rcases hin with hin | rfl | rfl
          · exact Or.inl hin
          · exact Or.inr rfl
          · exact Or.inr rfl
        · exact Or.inr hl

theorem processChoice_acts_mem (parse : Text → Option ToolCall) (te : Text → Text → TOut)
    (um : Bool) (st : LoopState) (ch : Choice) (a : Act) :
    a ∈ (processChoice parse te um st ch).acts → a ∈ st.acts ∨ isLoopAct a = true := by
  intro h
  cases um with
  | true =>
    simp only [processChoice] at h
    cases hc : ch.content with
    | none =>
      rw [hc] at h
      exact Or.inl h
    | some content =>
      rw [hc] at h
      simp only [List.mem_append, List.mem_cons, List.not_mem_nil, or_false] at h
      rcases h with h | rfl
      · exact Or.inl h
      · exact Or.inr rfl
  | false =>
    simp only [processChoice] at h
    cases hc : ch.content with
    | none =>
      rw [hc] at h
      exact Or.inl h
    | some content =>
      rw [hc] at h
      rcases processCalls_acts_mem te _ _ a h with hin | hl
      · simp only [List.mem_append, List.mem_cons, List.not_mem_nil, or_false] at hin
        rcases hin with hin | rfl
        · exact Or.inl hin
        · exact Or.inr rfl
      · exact Or.inr hl

theorem processChoices_acts_mem (parse : Text → Option ToolCall) (te : Text → Text → TOut)
    (um : Bool) :
    ∀ (chs : List Choice) (st : LoopState) (a : Act),
      a ∈ (processChoices parse te um chs st).acts → a ∈ st.acts ∨ isLoopAct a = true := by
  intro chs
  induction chs with
  | nil => intro st a h; exact Or.inl h
  | cons ch chs ih =>
    intro st a h
    rcases ih _ a h with hin | hl
    · exact processChoice_acts_mem parse te um st ch a hin
    · exact Or.inr hl

theorem runLoop_acts_mem (parse : Text → Option ToolCall) (te : Text → Text → TOut)
    (um : Bool) :
    ∀ (events : List Ev) (st : LoopState) (a : Act),
      a ∈ (runLoop parse te um events st).acts → a ∈ st.acts ∨ isLoopAct a = true := by
  intro events
  induction events with
  | nil => intro st a h; exact Or.inl h
  | cons ev rest ih =>
    intro st a h
    cases ev with
    | cancel => exact Or.inl h
    | streamErr m =>
      simp only [runLoop, List.mem_append, List.mem_singleton] at h
      rcases h with h | rfl
      · exact Or.inl h
      · exact Or.inr rfl
    | chunk u chs =>
      simp only [runLoop] at h
      rcases ih _ a h with hin | hl
      · rcases processChoices_acts_mem parse te um chs _ a hin with h2 | hl2
        · cases u with
          | none => exact Or.inl h2
          | some ud => exact Or.inl h2
        · exact Or.inr hl2
      · exact Or.inr hl

theorem contTokens_acts :
    ∀ (fev : List FEv) (a : Act), a ∈ (contTokens fev).1 →
      ∃ s, a = Act.emit (.token s false) := by
  intro fev
  induction fev with
  | nil => intro a h; simp [contTokens] at h
  | cons e rest ih =>
    intro a h
    cases e with
    | tok s =>
      simp only [contTokens] at h
      cases hre : contTokens rest with
      | mk acs out =>
        rw [hre] at h
        cases out with
        | ok t =>
          simp only [List.mem_cons] at h
          rcases h with rfl | h
          · exact ⟨s, rfl⟩
          · exact ih a (by rw [hre]; exact h)
        | err m =>
          simp only [List.mem_cons] at h
          rcases h with rfl | h
          · exact ⟨s, rfl⟩
          · exact ih a (by rw [hre]; exact h)
    | ferr m => simp [contTokens] at h

theorem processStream_not_modern (parse : Text → Option ToolCall) (te : Text → Text → TOut)
    (events : List Ev) (contEv mctEv : List FEv) :
    ∃ post resp,
      processStream parse te false events contEv mctEv
        = (runLoop parse te false events initState, post, .ok resp) ∧
      (∀ a ∈ post, isPostAct a = true) ∧
      post.countP (fun a => isXmlContOpen a) =
        (if ((runLoop parse te false events initState).needsCont &&
             check_if_continuation_needed
               (runLoop parse te false events initState).fullResponse) = true
         then 1 else 0) := by
  simp only [processStream, Bool.false_and, Bool.not_false, Bool.true_and]
  cases hn : (runLoop parse te false events initState).needsCont with
  | false =>
    refine ⟨[], (runLoop parse te false events initState).fullResponse, rfl, by simp, ?_⟩
    simp
  | true =>
    cases hc : check_if_continuation_needed
        (runLoop parse te false events initState).fullResponse with
    | false =>
      refine ⟨[], (runLoop parse te false events initState).fullResponse, rfl, by simp, ?_⟩
      simp
    | true =>
      simp only [continueAfterTools]
      cases hct : contTokens contEv with
      | mk acs out =>
        have hacs : ∀ a ∈ acs, ∃ s, a = Act.emit (.token s false) := by
          intro a ha
          exact contTokens_acts contEv a (by rw [hct]; exact ha)
        have hacs_post : ∀ a ∈ acs, isPostAct a = true := by
          intro a ha
          obtain ⟨s, rfl⟩ := hacs a ha
          rfl
        have hacs_cnt : acs.countP (fun a => isXmlContOpen a) = 0 := by
          rw [List.countP_eq_zero]
          intro a ha
          obtain ⟨s, rfl⟩ := hacs a ha
          simp [isXmlContOpen]
        cases out with
        | ok t =>
          refine ⟨Act.openStream .xmlCont :: acs, _, rfl, ?_, ?_⟩
          · intro a ha
            rcases List.mem_cons.mp ha with rfl | ha
            · rfl
            · exact hacs_post a ha
          · rw [List.countP_cons, hacs_cnt]
            simp [isXmlContOpen]
        | err m =>
          refine ⟨Act.openStream .xmlCont :: acs ++ [.emit (.token (contNote (contStreamErrPre ++ m)) false)],
            _, rfl, ?_, ?_⟩
          · intro a ha
            rcases List.mem_cons.mp ha with rfl | ha
            · rfl
            · rcases List.mem_append.mp ha with ha | ha
              · exact hacs_post a ha
              · rcases List.mem_singleton.mp ha with rfl
                rfl
          · simp only [List.countP_cons, List.countP_append, hacs_cnt]
            simp [isXmlContOpen]

theorem chatTurn_not_modern (parse : Text → Option ToolCall) (te : Text → Text → TOut)
    (mn : Text) (sid : Option Text) (events : List Ev) (contEv mctEv : List FEv) :
    ∃ post resp,
      chatTurn parse te mn sid events contEv mctEv
        = (Act.openStream .primary :: Act.registerStream (sid.getD tempId) ::
            ((loopFinal parse te mn events).acts ++ post ++
              Act.deregisterStream (sid.getD tempId) ::
              Act.emit (.terminal (loopFinal parse te mn events).wasCancelled
                (loopFinal parse te mn events).usage) ::
              (match (loopFinal parse te mn events).usage with
               | some u => [Act.emit (.usageEv u)]
               | none => [])),
           .ok resp) ∧
      (∀ a ∈ post, isPostAct a = true) ∧
      post.countP (fun a => isXmlContOpen a) =
        (if ((loopFinal parse te mn events).needsCont &&
             check_if_continuation_needed (loopFinal parse te mn events).fullResponse) = true
         then 1 else 0) := by
  obtain ⟨post, resp, heq, hshapes, hcount⟩ := processStream_not_modern parse te events contEv mctEv
  refine ⟨post, resp, ?_, hshapes, ?_⟩
  · simp only [chatTurn, should_use_modern_tool_format, heq, loopFinal]
  · simpa only [loopFinal, should_use_modern_tool_format] using hcount

/-! ### Invariants of the streaming loop: dedup and tool-call events -/

theorem execSigs_append (l1 l2 : List Act) :
    execSigs (l1 ++ l2) = execSigs l1 ++ execSigs l2 := by
  simp [execSigs, List.filterMap_append]

theorem processCalls_inv (te : Text → Text → TOut) :
    ∀ (cs : List ToolCall) (st : LoopState),
      (execSigs st.acts).Nodup →
      (∀ s ∈ execSigs st.acts, s ∈ st.executed) →
      toolCallEmits st.acts = okExecs st.acts →
      (execSigs (processCalls te cs st).acts).Nodup ∧
      (∀ s ∈ execSigs (processCalls te cs st).acts, s ∈ (processCalls te cs st).executed) ∧
      toolCallEmits (processCalls te cs st).acts = okExecs (processCalls te cs st).acts := by
  intro cs
  induction cs with
  | nil => intro st h1 h2 h3; exact ⟨h1, h2, h3⟩
  | cons c cs ih =>
    intro st h1 h2 h3
    simp only [processCalls]
    by_cases hm : sigOf c ∈ st.executed
    · rw [if_pos hm]
      exact ih st h1 h2 h3
    · rw [if_neg hm]
      have hnotin : sigOf c ∉ execSigs st.acts := fun hin => hm (h2 _ hin)
      cases hout : te c.1 c.2 with
      | ok r =>
        refine ih _ ?_ ?_ ?_
        · rw [show (st.acts ++
              [Act.execTool c.1 c.2 (.ok r), Act.emit (.toolCall c.1 c.2 r),
               Act.emit (.token (respOk r) false)]) =
              st.acts ++ [Act.execTool c.1 c.2 (.ok r), Act.emit (.toolCall c.1 c.2 r),
               Act.emit (.token (respOk r) false)] from rfl, execSigs_append]
          have hsig : execSigs [Act.execTool c.1 c.2 (.ok r), Act.emit (.toolCall c.1 c.2 r),
              Act.emit (.token (respOk r) false)] = [sigOf c] := rfl
          rw [hsig]
          simp only [List.nodup_append, List.nodup_cons, List.nodup_nil, and_true,
            List.not_mem_nil, not_false_iff, List.disjoint_singleton]
          exact ⟨h1, trivial, hnotin⟩
        · intro s hs
          rw [execSigs_append] at hs
          rcases List.mem_append.mp hs with hs | hs
          · exact List.mem_cons_of_mem _ (h2 s hs)
          · have : s = sigOf c := by
              have hsig : execSigs [Act.execTool c.1 c.2 (.ok r), Act.emit (.toolCall c.1 c.2 r),
                  Act.emit (.token (respOk r) false)] = [sigOf c] := rfl
              rw [hsig] at hs
              exact List.mem_singleton.mp hs
            rw [this]
            exact List.mem_cons_self _ _
        · simp only [toolCallEmits, okExecs, List.filterMap_append] at h3 ⊢
          rw [h3]
          rfl
      | err e =>
        refine ih _ ?_ ?_ ?_
        · rw [execSigs_append]
          have hsig : execSigs [Act.execTool c.1 c.2 (.err e),
              Act.emit (.token (respErr e) false)] = [sigOf c] := rfl
          rw [hsig]
          simp only [List.nodup_append, List.nodup_cons, List.nodup_nil, and_true,
            List.not_mem_nil, not_false_iff, List.disjoint_singleton]
          exact ⟨h1, trivial, hnotin⟩
        · intro s hs
          rw [execSigs_append] at hs
          rcases List.mem_append.mp hs with hs | hs
          · exact List.mem_cons_of_mem _ (h2 s hs)
          · have : s = sigOf c := by
              have hsig : execSigs [Act.execTool c.1 c.2 (.err e),
                  Act.emit (.token (respErr e) false)] = [sigOf c] := rfl
              rw [hsig] at hs
              exact List.mem_singleton.mp hs
            rw [this]
            exact List.mem_cons_self _ _
        · simp only [toolCallEmits, okExecs, List.filterMap_append] at h3 ⊢
          rw [h3]
          rfl

theorem processChoice_inv (parse : Text → Option ToolCall) (te : Text → Text → TOut)
    (um : Bool) (st : LoopState) (ch : Choice) :
    (execSigs st.acts).Nodup →
    (∀ s ∈ execSigs st.acts, s ∈ st.executed) →
    toolCallEmits st.acts = okExecs st.acts →
    (execSigs (processChoice parse te um st ch).acts).Nodup ∧
    (∀ s ∈ execSigs (processChoice parse te um st ch).acts,
      s ∈ (processChoice parse te um st ch).executed) ∧
    toolCallEmits (processChoice parse te um st ch).acts =
      okExecs (processChoice parse te um st ch).acts := by
  intro h1 h2 h3
  have htok : ∀ (l : List Act) (s : Text),
      execSigs (l ++ [Act.emit (.token s false)]) = execSigs l := by
    intro l s
    rw [execSigs_append]
    simp [execSigs, execNA?]
  have htok2 : ∀ (l : List Act) (s : Text),
      toolCallEmits (l ++ [Act.emit (.token s false)]) = toolCallEmits l ∧
      okExecs (l ++ [Act.emit (.token s false)]) = okExecs l := by
    intro l s
    constructor <;> simp [toolCallEmits, okExecs, List.filterMap_append, toolCallPayload?,
      okExecPayload?]
  cases um with
  | true =>
    simp only [processChoice]
    cases ch.content with
    | none => exact ⟨h1, h2, h3⟩
    | some content =>
      rw [htok st.acts content] at *
      exact ⟨h1, h2, by rw [(htok2 st.acts content).1, (htok2 st.acts content).2, h3]⟩
  | false =>
    simp only [processChoice]
    cases ch.content with
    | none => exact ⟨h1, h2, h3⟩
    | some content =>
      refine processCalls_inv te _ _ ?_ ?_ ?_
      · rw [htok st.acts content]
        exact h1
      · intro s hs
        rw [htok st.acts content] at hs
        exact h2 s hs
      · rw [(htok2 st.acts content).1, (htok2 st.acts content).2]
        exact h3

theorem processChoices_inv (parse : Text → Option ToolCall) (te : Text → Text → TOut)
    (um : Bool) :
    ∀ (chs : List Choice) (st : LoopState),
      (execSigs st.acts).Nodup →
      (∀ s ∈ execSigs st.acts, s ∈ st.executed) →
      toolCallEmits st.acts = okExecs st.acts →
      (execSigs (processChoices parse te um chs st).acts).Nodup ∧
      (∀ s ∈ execSigs (processChoices parse te um chs st).acts,
        s ∈ (processChoices parse te um chs st).executed) ∧
      toolCallEmits (processChoices parse te um chs st).acts =
        okExecs (processChoices parse te um chs st).acts := by
  intro chs
  induction chs with
  | nil => intro st h1 h2 h3; exact ⟨h1, h2, h3⟩
  | cons ch chs ih =>
    intro st h1 h2 h3
    obtain ⟨g1, g2, g3⟩ := processChoice_inv parse te um st ch h1 h2 h3
    exact ih _ g1 g2 g3

theorem runLoop_inv (parse : Text → Option ToolCall) (te : Text → Text → TOut) (um : Bool) :
    ∀ (events : List Ev) (st : LoopState),
      (execSigs st.acts).Nodup →
      (∀ s ∈ execSigs st.acts, s ∈ st.executed) →
      toolCallEmits st.acts = okExecs st.acts →
      (execSigs (runLoop parse te um events st).acts).Nodup ∧
      (∀ s ∈ execSigs (runLoop parse te um events st).acts,
        s ∈ (runLoop parse te um events st).executed) ∧
      toolCallEmits (runLoop parse te um events st).acts =
        okExecs (runLoop parse te um events st).acts := by
  intro events
  induction events with
  | nil => intro st h1 h2 h3; exact ⟨h1, h2, h3⟩
  | cons ev rest ih =>
    intro st h1 h2 h3
    cases ev with
    | cancel => exact ⟨h1, h2, h3⟩
    | streamErr m =>
      simp only [runLoop]
      have hs : execSigs (st.acts ++ [Act.emit (.chatError m)]) = execSigs st.acts := by
        rw [execSigs_append]
        simp [execSigs, execNA?]
      have ht : toolCallEmits (st.acts ++ [Act.emit (.chatError m)]) = toolCallEmits st.acts ∧
          okExecs (st.acts ++ [Act.emit (.chatError m)]) = okExecs st.acts := by
        constructor <;> simp [toolCallEmits, okExecs, List.filterMap_append, toolCallPayload?,
          okExecPayload?]
      refine ⟨by rw [hs]; exact h1, ?_, by rw [ht.1, ht.2]; exact h3⟩
      intro s hsm
      rw [hs] at hsm
      exact h2 s hsm
    | chunk u chs =>
      simp only [runLoop]
      cases u with
      | none =>
        obtain ⟨g1, g2, g3⟩ := processChoices_inv parse te um chs st h1 h2 h3
        exact ih _ g1 g2 g3
      | some ud =>
        obtain ⟨g1, g2, g3⟩ := processChoices_inv parse te um chs
          { st with usage := some ud } h1 h2 h3
        exact ih _ g1 g2 g3

theorem processCalls_modernCalls (te : Text → Text → TOut) :
    ∀ (cs : List ToolCall) (st : LoopState),
      (processCalls te cs st).modernCalls = st.modernCalls := by
  intro cs
  induction cs with
  | nil => intro st; rfl
  | cons c cs ih =>
    intro st
    simp only [processCalls]
    by_cases hm : sigOf c ∈ st.executed
    · rw [if_pos hm]
      exact ih st
    · rw [if_neg hm]
      cases te c.1 c.2 with
      | ok r => exact ih _
      | err e => exact ih _

theorem processChoice_modernCalls (parse : Text → Option ToolCall) (te : Text → Text → TOut)
    (st : LoopState) (ch : Choice) :
    (processChoice parse te false st ch).modernCalls = st.modernCalls := by
  simp only [processChoice]
  cases ch.content with
  | none => rfl
  | some content => exact processCalls_modernCalls te _ _

theorem processChoices_modernCalls (parse : Text → Option ToolCall) (te : Text → Text → TOut) :
    ∀ (chs : List Choice) (st : LoopState),
      (processChoices parse te false chs st).modernCalls = st.modernCalls := by
  intro chs
  induction chs with
  | nil => intro st; rfl
  | cons ch chs ih =>
    intro st
    rw [processChoices, ih, processChoice_modernCalls]

theorem runLoop_modernCalls (parse : Text → Option ToolCall) (te : Text → Text → TOut) :
    ∀ (events : List Ev) (st : LoopState),
      (runLoop parse te false events st).modernCalls = st.modernCalls := by
  intro events
  induction events with
  | nil => intro st; rfl
  | cons ev rest ih =>
    intro st
    cases ev with
    | cancel => rfl
    | streamErr m => rfl
    | chunk u chs =>
      simp only [runLoop]
      cases u with
      | none => rw [ih, processChoices_modernCalls]
      | some ud => rw [ih, processChoices_modernCalls]

/-! ### Registry lemmas -/

theorem hmRemove_none_eq {k : Text} :
    ∀ m : Registry, hmLookup k m = none → hmRemove k m = (none, m) := by
  intro m
  induction m with
  | nil => intro _; rfl
  | cons p rest ih =>
    intro h
    obtain ⟨k', v⟩ := p
    simp only [hmLookup] at h
    by_cases hk : k' = k
    · rw [if_pos hk] at h
      cases h
    · rw [if_neg hk] at h
      simp only [hmRemove]
      rw [if_neg hk, ih h]

theorem hmRemove_mem {k : Text} :
    ∀ (m : Registry) (p : Text × Nat), p ∈ (hmRemove k m).2 → p ∈ m := by
  intro m
  induction m with
  | nil => intro p h; exact absurd h (List.not_mem_nil p)
  | cons q rest ih =>
    intro p h
    obtain ⟨k', v⟩ := q
    simp only [hmRemove] at h
    by_cases hk : k' = k
    · rw [if_pos hk] at h
      exact List.mem_cons_of_mem _ h
    · rw [if_neg hk] at h
      rcases List.mem_cons.mp h with rfl | h
      · exact List.mem_cons_self _ _
      · exact List.mem_cons_of_mem _ (ih p h)

theorem hmLookup_mem {k : Text} {v : Nat} :
    ∀ m : Registry, hmLookup k m = some v → (k, v) ∈ m := by
  intro m
  induction m with
  | nil => intro h; cases h
  | cons q rest ih =>
    intro h
    obtain ⟨k', w⟩ := q
    simp only [hmLookup] at h
    by_cases hk : k' = k
    · rw [if_pos hk] at h
      obtain rfl : w = v := by simpa using h
      rw [hk]
      exact List.mem_cons_self _ _
    · rw [if_neg hk] at h
      exact List.mem_cons_of_mem _ (ih h)

/-! ### Cleanup of loop and post traces in whole-turn statements -/

theorem loopActs_all (parse : Text → Option ToolCall) (te : Text → Text → TOut)
    (mn : Text) (events : List Ev) :
    ∀ a ∈ (loopFinal parse te mn events).acts, isLoopAct a = true := by
  intro a ha
  rcases runLoop_acts_mem parse te _ events initState a ha with h0 | hl
  · exact absurd h0 (by simp [initState])
  · exact hl

/-- Claim C4: for every chat turn (from the point the backend stream was
opened), regardless of exit path — cancelled, naturally finished, or
terminated by a backend stream error — exactly one terminal finished event is
emitted, and it carries the cancelled flag and the captured usage data. -/
theorem terminal_event_exactly_once (parse : Text → Option ToolCall)
    (te : Text → Text → TOut) (mn : Text) (sid : Option Text) (events : List Ev)
    (contEv mctEv : List FEv) :
    (chatTurnTrace parse te mn sid events contEv mctEv).countP
      (fun a => isTerminalEmit a) = 1 ∧
    Act.emit (.terminal (loopFinal parse te mn events).wasCancelled
      (loopFinal parse te mn events).usage) ∈
        chatTurnTrace parse te mn sid events contEv mctEv := by
  obtain ⟨post, resp, heq, hshapes, -⟩ := chatTurn_not_modern parse te mn sid events contEv mctEv
  have htr : chatTurnTrace parse te mn sid events contEv mctEv
      = Act.openStream .primary :: Act.registerStream (sid.getD tempId) ::
          ((loopFinal parse te mn events).acts ++ post ++
            Act.deregisterStream (sid.getD tempId) ::
            Act.emit (.terminal (loopFinal parse te mn events).wasCancelled
              (loopFinal parse te mn events).usage) ::
            (match (loopFinal parse te mn events).usage with
             | some u => [Act.emit (.usageEv u)]
             | none => [])) := by
    unfold chatTurnTrace
    rw [heq]
  rw [htr]
  have hloop0 : (loopFinal parse te mn events).acts.countP (fun a => isTerminalEmit a) = 0 := by
    rw [List.countP_eq_zero]
    intro a ha
    have h := (isLoopAct_shapes (loopActs_all parse te mn events a ha)).1
    simp [h]
  have hpost0 : post.countP (fun a => isTerminalEmit a) = 0 := by
    rw [List.countP_eq_zero]
    intro a ha
    have h := (isPostAct_shapes (hshapes a ha)).1
    simp [h]
  have hut0 : (match (loopFinal parse te mn events).usage with
      | some u => [Act.emit (.usageEv u)]
      | none => ([] : List Act)).countP (fun a => isTerminalEmit a) = 0 := by
    cases (loopFinal parse te mn events).usage <;> simp [isTerminalEmit]
  constructor
  · simp only [List.countP_cons, List.countP_append, hloop0, hpost0, hut0]
    simp [isTerminalEmit]
  · apply List.mem_cons_of_mem
    apply List.mem_cons_of_mem
    refine List.mem_append.mpr (Or.inr ?_)
    exact List.mem_cons_of_mem _ (List.mem_cons_self _ _)

/-- Claim C5 (amended): the stream id is registered immediately AFTER the
backend stream is opened (not before, as stated: chat.rs opens the stream at
1285-1291 and registers at 1293-1300), the registration covers the whole
streaming loop and any continuation, and on every exit path it is deregistered
after the stream processing ends, just before the terminal event. -/
theorem registry_lifetime_amended (parse : Text → Option ToolCall)
    (te : Text → Text → TOut) (mn : Text) (sid : Option Text) (events : List Ev)
    (contEv mctEv : List FEv) :
    ∃ mid utail,
      chatTurnTrace parse te mn sid events contEv mctEv
        = Act.openStream .primary :: Act.registerStream (sid.getD tempId) ::
            (mid ++ Act.deregisterStream (sid.getD tempId) ::
              Act.emit (.terminal (loopFinal parse te mn events).wasCancelled
                (loopFinal parse te mn events).usage) :: utail) ∧
      (∀ a ∈ mid, isRegistryAct a = false) ∧
      (∀ a ∈ utail, isRegistryAct a = false) := by
  obtain ⟨post, resp, heq, hshapes, -⟩ := chatTurn_not_modern parse te mn sid events contEv mctEv
  refine ⟨(loopFinal parse te mn events).acts ++ post,
    (match (loopFinal parse te mn events).usage with
     | some u => [Act.emit (.usageEv u)]
     | none => []), ?_, ?_, ?_⟩
  · unfold chatTurnTrace
    rw [heq]
  · intro a ha
    rcases List.mem_append.mp ha with ha | ha
    · exact (isLoopAct_shapes (loopActs_all parse te mn events a ha)).2.1
    · exact (isPostAct_shapes (hshapes a ha)).2.1
  · intro a ha
    cases hu : (loopFinal parse te mn events).usage with
    | some u =>
      rw [hu] at ha
      rcases List.mem_singleton.mp ha with rfl
      rfl
    | none =>
      rw [hu] at ha
      exact absurd ha (List.not_mem_nil a)

/-- Claim C3 (amended): the XML continuation follow-up stream is opened at
most once per chat turn, and it is opened exactly when the continuation-needed
flag was set and the accumulated text contains a tool-response block — that
condition is checked regardless of the exit path, so the continuation also
fires on the cancelled and backend-error exits (chat.rs:645-688 tests only
`needs_continuation` after the loop, not `was_cancelled` or the error exit). -/
theorem continuation_amended (parse : Text → Option ToolCall)
    (te : Text → Text → TOut) (mn : Text) (sid : Option Text) (events : List Ev)
    (contEv mctEv : List FEv) :
    (chatTurnTrace parse te mn sid events contEv mctEv).countP
      (fun a => isXmlContOpen a) ≤ 1 ∧
    ((chatTurnTrace parse te mn sid events contEv mctEv).countP
      (fun a => isXmlContOpen a) = 1 ↔
      ((loopFinal parse te mn events).needsCont = true ∧
       check_if_continuation_needed (loopFinal parse te mn events).fullResponse = true)) := by
  obtain ⟨post, resp, heq, hshapes, hcount⟩ :=
    chatTurn_not_modern parse te mn sid events contEv mctEv
  have htr : chatTurnTrace parse te mn sid events contEv mctEv
      = Act.openStream .primary :: Act.registerStream (sid.getD tempId) ::
          ((loopFinal parse te mn events).acts ++ post ++
            Act.deregisterStream (sid.getD tempId) ::
            Act.emit (.terminal (loopFinal parse te mn events).wasCancelled
              (loopFinal parse te mn events).usage) ::
            (match (loopFinal parse te mn events).usage with
             | some u => [Act.emit (.usageEv u)]
             | none => [])) := by
    unfold chatTurnTrace
    rw [heq]
  have hloop0 : (loopFinal parse te mn events).acts.countP (fun a => isXmlContOpen a) = 0 := by
    rw [List.countP_eq_zero]
    intro a ha
    have h := (isLoopAct_shapes (loopActs_all parse te mn events a ha)).2.2.1
    simp [h]
  have hut0 : (match (loopFinal parse te mn events).usage with
      | some u => [Act.emit (.usageEv u)]
      | none => ([] : List Act)).countP (fun a => isXmlContOpen a) = 0 := by
    cases (loopFinal parse te mn events).usage <;> simp [isXmlContOpen]
  have htotal : (chatTurnTrace parse te mn sid events contEv mctEv).countP
      (fun a => isXmlContOpen a) =
      (if ((loopFinal parse te mn events).needsCont &&
           check_if_continuation_needed (loopFinal parse te mn events).fullResponse) = true
       then 1 else 0) := by
    rw [htr]
    simp only [List.countP_cons, List.countP_append, hloop0, hut0, hcount]
    simp [isXmlContOpen]
  rw [htotal]
  cases hb : ((loopFinal parse te mn events).needsCont &&
      check_if_continuation_needed (loopFinal parse te mn events).fullResponse) with
  | true =>
    obtain ⟨hb1, hb2⟩ := Bool.and_eq_true_iff.mp hb
    simp [hb1, hb2]
  | false =>
    rcases Bool.and_eq_false_iff.mp hb with hb1 | hb2
    · simp [hb1]
    · simp [hb2]

/-- Claim C9: the tool-format selector returns false for every model name, so
every chat turn uses the markup-embedded (XML text-scan) mode: no tools are
attached to the outbound request, the structured delta accumulation never
produces a call, and the structured-tool-call follow-up stream is never
opened. -/
theorem modern_format_unreachable :
    (∀ m : Text, should_use_modern_tool_format m = false) ∧
    (∀ (m : Text) (tools : List Text), requestToolsOf m tools = []) ∧
    (∀ (parse : Text → Option ToolCall) (te : Text → Text → TOut) (mn : Text)
       (sid : Option Text) (events : List Ev) (contEv mctEv : List FEv),
      (loopFinal parse te mn events).modernCalls = [] ∧
      Act.openStream .modernCont ∉ chatTurnTrace parse te mn sid events contEv mctEv) := by
  refine ⟨fun m => rfl, fun m tools => rfl, ?_⟩
  intro parse te mn sid events contEv mctEv
  constructor
  · exact runLoop_modernCalls parse te events initState
  · obtain ⟨post, resp, heq, hshapes, -⟩ :=
      chatTurn_not_modern parse te mn sid events contEv mctEv
    have htr : chatTurnTrace parse te mn sid events contEv mctEv
        = Act.openStream .primary :: Act.registerStream (sid.getD tempId) ::
            ((loopFinal parse te mn events).acts ++ post ++
              Act.deregisterStream (sid.getD tempId) ::
              Act.emit (.terminal (loopFinal parse te mn events).wasCancelled
                (loopFinal parse te mn events).usage) ::
              (match (loopFinal parse te mn events).usage with
               | some u => [Act.emit (.usageEv u)]
               | none => [])) := by
      unfold chatTurnTrace
      rw [heq]
    rw [htr]
    intro hmem
    rcases List.mem_cons.mp hmem with h0 | hmem
    · cases h0
    rcases List.mem_cons.mp hmem with h0 | hmem
    · cases h0
    rcases List.mem_append.mp hmem with hmem | hmem
    · rcases List.mem_append.mp hmem with hmem | hmem
      · exact (isLoopAct_shapes (loopActs_all parse te mn events _ hmem)).2.2.2 rfl
      · exact (isPostAct_shapes (hshapes _ hmem)).2.2.2.2.2 rfl
    · rcases List.mem_cons.mp hmem with h0 | hmem
      · cases h0
      rcases List.mem_cons.mp hmem with h0 | hmem
      · cases h0
      cases hu : (loopFinal parse te mn events).usage with
      | some u =>
        rw [hu] at hmem
        rcases List.mem_singleton.mp hmem with h0
        cases h0
      | none =>
        rw [hu] at hmem
        exact absurd hmem (List.not_mem_nil _)

/-- Claim C2: within a single chat turn, no tool invocation with the same
(name, serialized-arguments) pair is executed more than once, even though the
whole accumulated text is re-scanned on every arriving token: the dedup
signatures of the executions in the turn's trace are pairwise distinct, so
each (name, args) pair is executed at most once. -/
theorem dedup_executions (parse : Text → Option ToolCall) (te : Text → Text → TOut)
    (mn : Text) (sid : Option Text) (events : List Ev) (contEv mctEv : List FEv) :
    (execSigs (chatTurnTrace parse te mn sid events contEv mctEv)).Nodup ∧
    ((chatTurnTrace parse te mn sid events contEv mctEv).filterMap execNA?).Nodup := by
  obtain ⟨post, resp, heq, hshapes, -⟩ := chatTurn_not_modern parse te mn sid events contEv mctEv
  have htr : chatTurnTrace parse te mn sid events contEv mctEv
      = Act.openStream .primary :: Act.registerStream (sid.getD tempId) ::
          ((loopFinal parse te mn events).acts ++ post ++
            Act.deregisterStream (sid.getD tempId) ::
            Act.emit (.terminal (loopFinal parse te mn events).wasCancelled
              (loopFinal parse te mn events).usage) ::
            (match (loopFinal parse te mn events).usage with
             | some u => [Act.emit (.usageEv u)]
             | none => [])) := by
    unfold chatTurnTrace
    rw [heq]
  have hinv := runLoop_inv parse te (should_use_modern_tool_format mn) events initState
    (by simp [execSigs, initState]) (by simp [execSigs, initState])
    (by simp [toolCallEmits, okExecs, initState])
  have hpostNA : post.filterMap execNA? = [] :=
    filterMap_nil_of_none _ post (fun a ha => (isPostAct_shapes (hshapes a ha)).2.2.1)
  have hutNA : (match (loopFinal parse te mn events).usage with
      | some u => [Act.emit (.usageEv u)]
      | none => ([] : List Act)).filterMap execNA? = [] := by
    cases (loopFinal parse te mn events).usage <;> simp [execNA?]
  have hNA : (chatTurnTrace parse te mn sid events contEv mctEv).filterMap execNA?
      = (loopFinal parse te mn events).acts.filterMap execNA? := by
    rw [htr]
    simp only [List.filterMap_cons, List.filterMap_append, hpostNA, hutNA, execNA?]
    simp
  constructor
  · unfold execSigs
    rw [hNA]
    exact hinv.1
  · rw [hNA]
    exact List.Nodup.of_map _ hinv.1

/-- Claim C8 (amended): within a turn, the `tool-call` events emitted to the
UI correspond one-to-one, in order and payload, to the SUCCESSFUL tool
executions; a failed execution emits no `tool-call` event (the error is only
surfaced as a tool-response content token; chat.rs:748-762 has no `tool-call`
emit in the error arm). -/
theorem tool_call_events_amended (parse : Text → Option ToolCall) (te : Text → Text → TOut)
    (mn : Text) (sid : Option Text) (events : List Ev) (contEv mctEv : List FEv) :
    toolCallEmits (chatTurnTrace parse te mn sid events contEv mctEv)
      = okExecs (chatTurnTrace parse te mn sid events contEv mctEv) := by
  obtain ⟨post, resp, heq, hshapes, -⟩ := chatTurn_not_modern parse te mn sid events contEv mctEv
  have htr : chatTurnTrace parse te mn sid events contEv mctEv
      = Act.openStream .primary :: Act.registerStream (sid.getD tempId) ::
          ((loopFinal parse te mn events).acts ++ post ++
            Act.deregisterStream (sid.getD tempId) ::
            Act.emit (.terminal (loopFinal parse te mn events).wasCancelled
              (loopFinal parse te mn events).usage) ::
            (match (loopFinal parse te mn events).usage with
             | some u => [Act.emit (.usageEv u)]
             | none => [])) := by
    unfold chatTurnTrace
    rw [heq]
  have hinv := runLoop_inv parse te (should_use_modern_tool_format mn) events initState
    (by simp [execSigs, initState]) (by simp [execSigs, initState])
    (by simp [toolCallEmits, okExecs, initState])
  have hpostT : post.filterMap toolCallPayload? = [] :=
    filterMap_nil_of_none _ post (fun a ha => (isPostAct_shapes (hshapes a ha)).2.2.2.1)
  have hpostO : post.filterMap okExecPayload? = [] :=
    filterMap_nil_of_none _ post (fun a ha => (isPostAct_shapes (hshapes a ha)).2.2.2.2.1)
  have hutT : (match (loopFinal parse te mn events).usage with
      | some u => [Act.emit (.usageEv u)]
      | none => ([] : List Act)).filterMap toolCallPayload? = [] := by
    cases (loopFinal parse te mn events).usage <;> simp [toolCallPayload?]
  have hutO : (match (loopFinal parse te mn events).usage with
      | some u => [Act.emit (.usageEv u)]
      | none => ([] : List Act)).filterMap okExecPayload? = [] := by
    cases (loopFinal parse te mn events).usage <;> simp [okExecPayload?]
  rw [htr]
  unfold toolCallEmits okExecs
  simp only [List.filterMap_cons, List.filterMap_append, hpostT, hpostO, hutT, hutO,
    toolCallPayload?, okExecPayload?]
  simp only [List.append_nil, List.nil_append]
  have h3 := hinv.2.2
  unfold toolCallEmits okExecs at h3
  unfold loopFinal
  rw [h3]

/-- Claim C6 (amended): signalling cancellation for a stream id with no live
registration returns an ERROR result (not the boolean false the claim states:
chat.rs:1173-1175 returns `Err("No active streaming session found: ...")`),
sends no signal, and leaves the registry unchanged. -/
theorem cancel_unregistered_amended (streams : Registry) (id : Text)
    (h : hmLookup id streams = none) :
    stop_chat_streaming streams id = (.err (notFoundPre ++ id), streams, false) := by
  unfold stop_chat_streaming
  rw [hmRemove_none_eq streams h]

/-- Witness for C6 (amended) on the empty registry. -/
theorem cancel_unregistered_witness :
    stop_chat_streaming [] ['x'] = (.err (notFoundPre ++ ['x']), [], false) :=
  cancel_unregistered_amended [] ['x'] rfl

/-- Claim C6, counterexample: on an unregistered id the command returns a
`Result::Err`, not a boolean false result — the claim's "returns the boolean
result false, not an error" does not hold (it does leave the registry
unchanged and sends no signal). -/
theorem cancel_unregistered_cex :
    (stop_chat_streaming [] ['x']).1 = TOut.err (notFoundPre ++ ['x']) ∧
    (stop_chat_streaming [] ['x']).2.1 = ([] : Registry) ∧
    (stop_chat_streaming [] ['x']).2.2 = false := by
  refine ⟨?_, ?_, ?_⟩ <;> rfl

/-- Claim C10: a turn started without a session id registers under the fixed
literal id `temp`; registering `temp` again (a second sessionless turn while
the first is in flight) replaces the first turn's entry — lookups now yield
the second sender and the first sender is unreachable from the registry, so
the first turn can no longer be cancelled by id. -/
theorem temp_stream_id :
    (∀ (parse : Text → Option ToolCall) (te : Text → Text → TOut) (mn : Text)
       (events : List Ev) (contEv mctEv : List FEv),
      ∃ rest, chatTurnTrace parse te mn none events contEv mctEv
        = Act.openStream .primary :: Act.registerStream tempId :: rest) ∧
    (∀ (m : Registry) (v1 v2 : Nat),
      hmLookup tempId (hmInsert tempId v2 (hmInsert tempId v1 m)) = some v2) ∧
    (∀ (m : Registry) (v1 v2 : Nat), v1 ≠ v2 → (∀ p ∈ m, p.2 ≠ v1) →
      ∀ id, hmLookup id (hmInsert tempId v2 (hmInsert tempId v1 m)) ≠ some v1) := by
  refine ⟨?_, ?_, ?_⟩
  · intro parse te mn events contEv mctEv
    obtain ⟨post, resp, heq, -, -⟩ := chatTurn_not_modern parse te mn none events contEv mctEv
    simp only [Option.getD_none] at heq
    refine ⟨(loopFinal parse te mn events).acts ++ post ++
        Act.deregisterStream tempId ::
        Act.emit (.terminal (loopFinal parse te mn events).wasCancelled
          (loopFinal parse te mn events).usage) ::
        (match (loopFinal parse te mn events).usage with
         | some u => [Act.emit (.usageEv u)]
         | none => []), ?_⟩
    unfold chatTurnTrace
    rw [heq]
  · intro m v1 v2
    simp [hmInsert, hmLookup]
  · intro m v1 v2 hne hmem id
    have hstate : hmInsert tempId v2 (hmInsert tempId v1 m)
        = (tempId, v2) :: (hmRemove tempId m).2 := by
      simp [hmInsert, hmRemove]
    rw [hstate]
    intro hlook
    simp only [hmLookup] at hlook
    by_cases hk : tempId = id
    · rw [if_pos hk] at hlook
      have hv : v2 = v1 := by simpa using hlook
      exact hne hv.symm
    · rw [if_neg hk] at hlook
      have hin := hmLookup_mem _ hlook
      have hin2 := hmRemove_mem m _ hin
      exact hmem _ hin2 rfl

/-- Witness for C10 at concrete inputs: an empty stream, and senders 1 and 2
registered in succession under `temp` over the empty registry. -/
theorem temp_stream_id_witness :
    (∃ rest, chatTurnTrace cexParse cexExecOk cexModel none [] [] []
      = Act.openStream .primary :: Act.registerStream tempId :: rest) ∧
    hmLookup tempId (hmInsert tempId 2 (hmInsert tempId 1 [])) = some 2 ∧
    hmLookup tempId (hmInsert tempId 2 (hmInsert tempId 1 [])) ≠ some 1 :=
  ⟨temp_stream_id.1 cexParse cexExecOk cexModel [] [] [],
   temp_stream_id.2.1 [] 1 2,
   temp_stream_id.2.2 [] 1 2 (by decide) (by simp) tempId⟩

/-- Claim C5, counterexample: with an empty backend stream, the turn's trace
is exactly open-stream, register, deregister, terminal — the stream is opened
FIRST (index 0) and the id registered only after it (index 1), so the id is
not registered immediately before the backend stream is opened as claimed. -/
theorem register_after_open_cex :
    chatTurnTrace cexParse cexExecOk cexModel none [] [] []
      = [Act.openStream .primary, Act.registerStream tempId,
         Act.deregisterStream tempId, Act.emit (.terminal false none)] := by decide

/-- Claim C3, counterexample: a turn whose stream yields one complete call
block (executed successfully) and is then cancelled still opens the
continuation follow-up stream: the cancelled exit path does issue a
continuation request. -/
theorem continuation_after_cancel_cex :
    (loopFinal cexParse cexExecOk cexModel cexEventsCancel).wasCancelled = true ∧
    (chatTurnTrace cexParse cexExecOk cexModel none cexEventsCancel [] []).countP
      (fun a => isXmlContOpen a) = 1 := by decide

/-- Claim C8, counterexample: a turn in which the single tool invocation FAILS
performs exactly one tool execution but emits zero `tool-call` events — not
exactly one per executed invocation as claimed. -/
theorem tool_call_event_cex :
    (chatTurnTrace cexParse cexExecErr cexModel none cexEventsPlain [] []).filterMap execNA?
      = [(gName, gArgs)] ∧
    toolCallEmits (chatTurnTrace cexParse cexExecErr cexModel none cexEventsPlain [] []) = [] := by
  decide

end SparrowChat
